import Mathlib

/-!
# openapi2schema: a shallow embedding of `cmd/openapi2schema/openapi2schema.go`

The program turns a catalog of OpenAPI definitions into one JSON-schema
document per definition.  The embedding follows the Go source:

* a Go `string` is a `Str` (a list of characters); the separators the program
  splits on (`/` and `.`) are single characters;
* a Go `map[string]T` is an association list `GoMap T`; reading a key returns
  the first binding, `m[k] = v` overwrites an existing binding or appends one,
  and `range` visits the bindings in list order;
* a run-time panic (index out of range, nil dereference) is a value of `Res`;
* the recursion of `convert` is bounded by a depth budget (fuel), and a
  conversion that needs more depth than the budget answers `Res.exhausted`.
-/

namespace Openapi2schema

/-- A Go string, as its sequence of characters. -/
abbrev Str := List Char

/-- The run-time panics the program can raise. -/
inductive Panic where
  | indexOutOfRange
  | nilDereference
  deriving DecidableEq, Repr

/-- The outcome of running a piece of the program: a value, a panic, or the
depth budget of the embedding used up. -/
inductive Res (α : Type) where
  | ok (a : α)
  | panic (p : Panic)
  | exhausted
  deriving DecidableEq, Repr

/-- A value of Go type `interface{}` as it occurs in an `enum` list. -/
inductive Iface where
  | null
  | str (s : Str)
  | int (i : Int)
  | bool (b : Bool)
  deriving DecidableEq, Repr

/-! ## Go maps -/

/-- A Go `map[string]T`: a list of bindings. -/
abbrev GoMap (α : Type) := List (Str × α)

namespace GoMap

/-- Reads `m[k]` with the comma-ok idiom: the first binding of `k`, if any. -/
def get {α : Type} : GoMap α → Str → Option α
  | [], _ => none
  | (k', v) :: rest, k => if k' = k then some v else get rest k

/-- The assignment `m[k] = v`: overwrites the binding of `k`, or adds one. -/
def set {α : Type} : GoMap α → Str → α → GoMap α
  | [], k, v => [(k, v)]
  | (k', v') :: rest, k, v => if k' = k then (k, v) :: rest else (k', v') :: set rest k v

/-- The keys of the map, in the order `range` visits them. -/
def keys {α : Type} (m : GoMap α) : List Str := m.map Prod.fst

end GoMap

/-! ## The `strings` and `fmt` functions the program calls -/

namespace strings

/-- Models `strings.Split(s, sep)` for a one-character separator: the pieces
of `s` between the occurrences of `sep` (one more piece than occurrences). -/
def Split (s : Str) (sep : Char) : List Str :=
  match s with
  | [] => [[]]
  | c :: cs =>
    if c = sep then [] :: Split cs sep
    else
      match Split cs sep with
      | [] => [[c]]
      | piece :: pieces => (c :: piece) :: pieces

/-- Models `strings.ReplaceAll(s, old, new)` for one-character `old` and
`new`. -/
def ReplaceAll (s : Str) (old new : Char) : Str :=
  s.map (fun c => if c = old then new else c)

end strings

/-- Go slice indexing `xs[i]` with an `int` index: panics outside
`0 ≤ i < len(xs)`. -/
def index {α : Type} (xs : List α) (i : Int) : Res α :=
  if i < 0 then Res.panic Panic.indexOutOfRange
  else
    match xs.get? i.toNat with
    | some x => Res.ok x
    | none => Res.panic Panic.indexOutOfRange

/-- Go `len(xs)` as an `int`. -/
def len {α : Type} (xs : List α) : Int := (xs.length : Int)

/-! ## The data model -/

/-- The part of `spec.Schema` that the program reads: `Description`, `Type`,
the string form of `Ref`, `Enum`, `Items` (a pointer to a `SchemaOrArray`
whose `Schema` is itself a pointer) and `Properties`. -/
inductive Schema where
  | mk (Description : Str) (Type_ : List Str) (Ref : Str) (Enum : List Iface)
      (Items : Option (Option Schema)) (Properties : List (Str × Schema))

namespace Schema

/-- The field `Description`. -/
def Description : Schema → Str
  | mk d _ _ _ _ _ => d

/-- The field `Type`, a list of type tags. -/
def Type_ : Schema → List Str
  | mk _ t _ _ _ _ => t

/-- The value of `Ref.String()`. -/
def Ref : Schema → Str
  | mk _ _ r _ _ _ => r

/-- The field `Enum`. -/
def Enum : Schema → List Iface
  | mk _ _ _ e _ _ => e

/-- The field `Items`: `none` is a nil `*SchemaOrArray`, `some none` one
whose `Schema` pointer is nil. -/
def Items : Schema → Option (Option Schema)
  | mk _ _ _ _ i _ => i

/-- The field `Properties`. -/
def Properties : Schema → GoMap Schema
  | mk _ _ _ _ _ p => p

/-- The zero value of `spec.Schema`. -/
def zero : Schema := mk [] [] [] [] none []

end Schema

/-- The type `common.OpenAPIDefinition`, reduced to the `Schema` the program
reads. -/
structure OpenAPIDefinition where
  Schema : Schema

/-- The zero value of `common.OpenAPIDefinition`, which reading an absent key
of the catalog returns. -/
def OpenAPIDefinition.zero : OpenAPIDefinition := ⟨Schema.zero⟩

/-- The catalog `map[string]common.OpenAPIDefinition`. -/
abbrev Catalog := GoMap OpenAPIDefinition

/-- The Go expression `openAPIDefinitions[ref]`: the zero value for an absent
key. -/
def Catalog.at (openAPIDefinitions : Catalog) (ref : Str) : OpenAPIDefinition :=
  match GoMap.get openAPIDefinitions ref with
  | some d => d
  | none => OpenAPIDefinition.zero

/-- The struct `Property`.  `Properties` and `Items` are `none` for a nil
map. -/
inductive Property where
  | mk (Title : Str) (Type_ : Str) (Const : Str) (Enum : List Iface)
      (Properties : Option (List (Str × Property)))
      (Items : Option (List (Str × List (Str × Property))))

namespace Property

/-- The field `Title`. -/
def Title : Property → Str
  | mk t _ _ _ _ _ => t

/-- The field `Type`. -/
def Type_ : Property → Str
  | mk _ t _ _ _ _ => t

/-- The field `Const`. -/
def Const : Property → Str
  | mk _ _ c _ _ _ => c

/-- The field `Enum`. -/
def Enum : Property → List Iface
  | mk _ _ _ e _ _ => e

/-- The field `Properties`. -/
def Properties : Property → Option (GoMap Property)
  | mk _ _ _ _ p _ => p

/-- The field `Items`. -/
def Items : Property → Option (GoMap (GoMap Property))
  | mk _ _ _ _ _ i => i

end Property

/-- The struct `JSONSchema`. -/
structure JSONSchema where
  Properties : GoMap Property
  Title : Str
  Type_ : Str
  Description : Str
  Required : List Iface

/-! ## The functions of the program -/

/-- The function `apiVersionAndKind`. -/
def apiVersionAndKind (api : Str) : Res (Str × Str) :=
  let strs := strings.Split api '/'
  if len strs < 1 then Res.ok ([], [])
  else
    match index strs (len strs - 1) with
    | Res.ok last =>
      match index (strings.Split last '.') 1 with
      | Res.ok kind =>
        match index strs (len strs - 2) with
        | Res.ok group =>
          match index (strings.Split last '.') 0 with
          | Res.ok version => Res.ok (group ++ '/' :: version, kind)
          | Res.panic p => Res.panic p
          | Res.exhausted => Res.exhausted
        | Res.panic p => Res.panic p
        | Res.exhausted => Res.exhausted
      | Res.panic p => Res.panic p
      | Res.exhausted => Res.exhausted
    | Res.panic p => Res.panic p
    | Res.exhausted => Res.exhausted

/-- The function `resourceName`. -/
def resourceName (api : Str) : Res Str :=
  match apiVersionAndKind api with
  | Res.ok (apiVersion, kind) => Res.ok (strings.ReplaceAll apiVersion '/' '_' ++ '_' :: kind)
  | Res.panic p => Res.panic p
  | Res.exhausted => Res.exhausted

/-- The body of the loop of `convert` for one `field, prop` pair, given the
function `recur` that the recursive calls of `convert` run. -/
def convertField (recur : GoMap Schema → Str → Res (GoMap Property))
    (openAPIDefinitions : Catalog) (api : Str) (field : Str) (prop : Schema) :
    Res Property :=
  match prop.Type_ with
  | [] =>
    let ref := prop.Ref
    let definition := openAPIDefinitions.at ref
    match recur definition.Schema.Properties ref with
    | Res.ok sub => Res.ok (Property.mk field "object".toList [] [] (some sub) none)
    | Res.panic p => Res.panic p
    | Res.exhausted => Res.exhausted
  | t :: _ =>
    if t = "array".toList then
      match prop.Items with
      | none => Res.panic Panic.nilDereference
      | some none => Res.panic Panic.nilDereference
      | some (some item) =>
        let ref := item.Ref
        let definition := openAPIDefinitions.at ref
        match recur definition.Schema.Properties ref with
        | Res.ok sub =>
          Res.ok (Property.mk field "array".toList [] [] none
            (some [("properties".toList, sub)]))
        | Res.panic p => Res.panic p
        | Res.exhausted => Res.exhausted
    else
      if field = "kind".toList then
        match apiVersionAndKind api with
        | Res.ok (_, kind) => Res.ok (Property.mk field t kind prop.Enum none none)
        | Res.panic p => Res.panic p
        | Res.exhausted => Res.exhausted
      else if field = "apiVersion".toList then
        match apiVersionAndKind api with
        | Res.ok (apiVersion, _) => Res.ok (Property.mk field t apiVersion prop.Enum none none)
        | Res.panic p => Res.panic p
        | Res.exhausted => Res.exhausted
      else Res.ok (Property.mk field t [] prop.Enum none none)

/-- The loop `for field, prop := range props` of `convert`, run over the
bindings still to visit, with `properties` the map built so far. -/
def convertLoop (body : Str → Schema → Res Property) :
    GoMap Schema → GoMap Property → Res (GoMap Property)
  | [], properties => Res.ok properties
  | (field, prop) :: rest, properties =>
    match body field prop with
    | Res.ok property => convertLoop body rest (properties.set field property)
    | Res.panic p => Res.panic p
    | Res.exhausted => Res.exhausted

/-- The function `convert`, with a budget on the depth of its recursion: a
call made with budget `0` is `Res.exhausted`. -/
def convert : Nat → Catalog → GoMap Schema → Str → Res (GoMap Property)
  | 0, _, _, _ => Res.exhausted
  | fuel + 1, openAPIDefinitions, props, api =>
    convertLoop (convertField (convert fuel openAPIDefinitions) openAPIDefinitions api)
      props []

/-- The body of the loop of `main` for one `api, definition` pair, up to the
call of `writeToFile`: the document that is written. -/
def mainBody (fuel : Nat) (openAPIDefinitions : Catalog) (api : Str)
    (definition : OpenAPIDefinition) : Res JSONSchema :=
  match resourceName api with
  | Res.ok title =>
    match convert fuel openAPIDefinitions definition.Schema.Properties api with
    | Res.ok properties =>
      Res.ok ⟨properties, title, "object".toList, definition.Schema.Description, []⟩
    | Res.panic p => Res.panic p
    | Res.exhausted => Res.exhausted
  | Res.panic p => Res.panic p
  | Res.exhausted => Res.exhausted

/-- The call `convert(openAPIDefinitions, props, api)` returns `out`: some
depth budget is enough for the embedding to produce it. -/
def Converts (openAPIDefinitions : Catalog) (props : GoMap Schema) (api : Str)
    (out : GoMap Property) : Prop :=
  ∃ fuel, convert fuel openAPIDefinitions props api = Res.ok out

/-- The reference `P/G/V.K` with group `G`, version `V` and kind `K`, or
`G/V.K` when the prefix `P` is absent. -/
def shapedRef : Option Str → Str → Str → Str → Str
  | none, G, V, K => G ++ '/' :: (V ++ '.' :: K)
  | some P, G, V, K => P ++ '/' :: (G ++ '/' :: (V ++ '.' :: K))

/-! ## The reference graph of a catalog -/

/-- Whether a result is a value. -/
def Res.isOk {α : Type} : Res α → Bool
  | Res.ok _ => true
  | Res.panic _ => false
  | Res.exhausted => false

/-- The reference that the loop body of `convert` recurses into for a field:
the reference of a field without a type tag, the reference of the item
schema of an `array` field that has one, and none for any other field. -/
def fieldRef (s : Schema) : Option Str :=
  match s.Type_ with
  | [] => some s.Ref
  | t :: _ =>
    if t = "array".toList then
      match s.Items with
      | some (some item) => some item.Ref
      | _ => none
    else none

/-- The definition that the catalog holds for `r` has a field for which
`convert` recurses into `r2`. -/
def RefersTo (cat : Catalog) (r r2 : Str) : Prop :=
  ∃ d f s, GoMap.get cat r = some d ∧ (f, s) ∈ d.Schema.Properties ∧ fieldRef s = some r2

/-- The catalog has no reference cycle: no reference leads back to itself
along one or more steps of `RefersTo`. -/
def Acyclic (cat : Catalog) : Prop :=
  ∀ r, ¬ Relation.TransGen (RefersTo cat) r r

/-- The conversion of `props` reaches the reference `r`: a field of `props`
recurses into a reference from which zero or more steps of `RefersTo` lead to
`r`. -/
def Reached (cat : Catalog) (props : GoMap Schema) (r : Str) : Prop :=
  ∃ f s r0, (f, s) ∈ props ∧ fieldRef s = some r0 ∧
    Relation.ReflTransGen (RefersTo cat) r0 r

/-- The loop body has what it dereferences for the field `f` in the context
`api`: an `array` field has its item schema, and `apiVersionAndKind` returns
on `api` when the field is a primitive one named `kind` or `apiVersion`. -/
def fieldSafe (api f : Str) (s : Schema) : Bool :=
  match s.Type_ with
  | [] => true
  | t :: _ =>
    if t = "array".toList then
      match s.Items with
      | some (some _) => true
      | _ => false
    else if f = "kind".toList ∨ f = "apiVersion".toList then (apiVersionAndKind api).isOk
    else true

/-- Every field of `props` is `fieldSafe` in the context `api`. -/
def propsSafe (api : Str) (props : GoMap Schema) : Bool :=
  props.all (fun b => fieldSafe api b.1 b.2)

/-- The last of the segments that `/` separates in a reference. -/
def lastSegment (api : Str) : Str := (strings.Split api '/').getLastD []

/-! ## Sample catalogs -/

/-- A field schema with one type tag and nothing else. -/
def Schema.ofType (t : Str) : Schema := Schema.mk [] [t] [] [] none []

/-- A field schema that carries only a reference. -/
def Schema.ofRef (r : Str) : Schema := Schema.mk [] [] r [] none []

/-- A field schema of type `array` whose item schema is `item`. -/
def Schema.arrayOf (item : Schema) : Schema :=
  Schema.mk [] ["array".toList] [] [] (some (some item)) []

/-- A field schema with one type tag and an enumerated value set. -/
def Schema.ofEnum (t : Str) (values : List Iface) : Schema :=
  Schema.mk [] [t] [] values none []

/-- The properties of the definition `pkg/api/v1.Widget`. -/
def widgetProps : GoMap Schema :=
  [("kind".toList, Schema.ofType "string".toList),
   ("apiVersion".toList, Schema.ofType "string".toList),
   ("spec".toList, Schema.ofRef "pkg/api/v1.WidgetSpec".toList)]

/-- The properties of the definition `pkg/api/v1.WidgetSpec`. -/
def widgetSpecProps : GoMap Schema :=
  [("name".toList, Schema.ofType "string".toList)]

/-- The catalog of the end-to-end scenario: `pkg/api/v1.Widget` and the
definition `pkg/api/v1.WidgetSpec` it refers to. -/
def widgetCatalog : Catalog :=
  [("pkg/api/v1.Widget".toList,
      ⟨Schema.mk "A widget.".toList ["object".toList] [] [] none widgetProps⟩),
   ("pkg/api/v1.WidgetSpec".toList,
      ⟨Schema.mk [] ["object".toList] [] [] none widgetSpecProps⟩)]

/-- The conversion of `widgetSpecProps`. -/
def widgetSpecOut : GoMap Property :=
  [("name".toList, Property.mk "name".toList "string".toList [] [] none none)]

/-- The conversion of `widgetProps` in the context `pkg/api/v1.Widget`. -/
def widgetOut : GoMap Property :=
  [("kind".toList, Property.mk "kind".toList "string".toList "Widget".toList [] none none),
   ("apiVersion".toList,
      Property.mk "apiVersion".toList "string".toList "api/v1".toList [] none none),
   ("spec".toList,
      Property.mk "spec".toList "object".toList [] [] (some widgetSpecOut) none)]

/-- The enumerated values of the field `phase` of a gadget. -/
def gadgetPhases : List Iface :=
  [Iface.str "Running".toList, Iface.str "Stopped".toList]

/-- The properties of a definition with an array field `ports`, whose items
refer to `pkg/api/v1.Port`, and an enumerated field `phase`. -/
def gadgetProps : GoMap Schema :=
  [("ports".toList, Schema.arrayOf (Schema.ofRef "pkg/api/v1.Port".toList)),
   ("phase".toList, Schema.ofEnum "string".toList gadgetPhases)]

/-- A catalog with the definition `pkg/api/v1.Gadget` and the definition
`pkg/api/v1.Port` of the items of its field `ports`. -/
def gadgetCatalog : Catalog :=
  [("pkg/api/v1.Gadget".toList,
      ⟨Schema.mk [] ["object".toList] [] [] none gadgetProps⟩),
   ("pkg/api/v1.Port".toList,
      ⟨Schema.mk [] ["object".toList] [] [] none
        [("number".toList, Schema.ofType "integer".toList)]⟩)]

/-- The conversion of the properties of `pkg/api/v1.Port`. -/
def portOut : GoMap Property :=
  [("number".toList, Property.mk "number".toList "integer".toList [] [] none none)]

/-- The conversion of `gadgetProps` in the context `pkg/api/v1.Gadget`. -/
def gadgetOut : GoMap Property :=
  [("ports".toList,
      Property.mk "ports".toList "array".toList [] [] none
        (some [("properties".toList, portOut)])),
   ("phase".toList,
      Property.mk "phase".toList "string".toList [] gadgetPhases none none)]

/-- A property map whose fields named `kind` and `apiVersion` are not
primitive: `kind` refers to `pkg/api/v1.WidgetSpec` and `apiVersion` is an
array of it. -/
def structuredIdentityProps : GoMap Schema :=
  [("kind".toList, Schema.ofRef "pkg/api/v1.WidgetSpec".toList),
   ("apiVersion".toList, Schema.arrayOf (Schema.ofRef "pkg/api/v1.WidgetSpec".toList))]

/-- The conversion of `structuredIdentityProps`. -/
def structuredIdentityOut : GoMap Property :=
  [("kind".toList, Property.mk "kind".toList "object".toList [] [] (some widgetSpecOut) none),
   ("apiVersion".toList,
      Property.mk "apiVersion".toList "array".toList [] [] none
        (some [("properties".toList, widgetSpecOut)]))]

/-- The enumerated values of the field `kind` of `enumeratedKindProps`. -/
def kindValues : List Iface :=
  [Iface.str "Widget".toList, Iface.str "Gadget".toList]

/-- A property map whose primitive field `kind` has an enumerated value
set. -/
def enumeratedKindProps : GoMap Schema :=
  [("kind".toList, Schema.ofEnum "string".toList kindValues)]

/-- The conversion of `enumeratedKindProps` in the context
`pkg/api/v1.Widget`. -/
def enumeratedKindOut : GoMap Property :=
  [("kind".toList,
      Property.mk "kind".toList "string".toList "Widget".toList kindValues none none)]

/-- The properties of a definition that refers to `pkg/meta/v1.ObjectRef`
from an untyped field and from the items of an array field. -/
def ownerProps : GoMap Schema :=
  [("owner".toList, Schema.ofRef "pkg/meta/v1.ObjectRef".toList),
   ("members".toList, Schema.arrayOf (Schema.ofRef "pkg/meta/v1.ObjectRef".toList))]

/-- The properties of the definition `pkg/meta/v1.ObjectRef`. -/
def objectRefProps : GoMap Schema :=
  [("kind".toList, Schema.ofType "string".toList),
   ("apiVersion".toList, Schema.ofType "string".toList)]

/-- A catalog in which `pkg/api/v1.Owner` refers to `pkg/meta/v1.ObjectRef`,
a definition with identity fields of its own. -/
def ownerCatalog : Catalog :=
  [("pkg/api/v1.Owner".toList, ⟨Schema.mk [] ["object".toList] [] [] none ownerProps⟩),
   ("pkg/meta/v1.ObjectRef".toList,
      ⟨Schema.mk [] ["object".toList] [] [] none objectRefProps⟩)]

/-- The conversion of `objectRefProps` in the context
`pkg/meta/v1.ObjectRef`. -/
def objectRefOut : GoMap Property :=
  [("kind".toList, Property.mk "kind".toList "string".toList "ObjectRef".toList [] none none),
   ("apiVersion".toList,
      Property.mk "apiVersion".toList "string".toList "meta/v1".toList [] none none)]

/-- The conversion of `ownerProps`. -/
def ownerOut : GoMap Property :=
  [("owner".toList, Property.mk "owner".toList "object".toList [] [] (some objectRefOut) none),
   ("members".toList,
      Property.mk "members".toList "array".toList [] [] none
        (some [("properties".toList, objectRefOut)]))]

/-- An array field whose items are strings with an enumerated value set and
carry no reference. -/
def tagsField : Schema :=
  Schema.arrayOf (Schema.ofEnum "string".toList [Iface.str "red".toList])

/-! ## The shape of the output tree -/

/-- The shape of one output property: `Properties` is set only on an `object`
property, which then has no `Items`, no enumerated values and no constant;
`Items` is set only on an `array` property, which then has the single key
`properties` and no `Properties`, no enumerated values and no constant; and a
constant is non-empty only on a property titled `kind` or `apiVersion`. -/
def WellShaped (q : Property) : Prop :=
  (q.Properties ≠ none →
    q.Type_ = "object".toList ∧ q.Items = none ∧ q.Enum = [] ∧ q.Const = []) ∧
  (q.Items ≠ none →
    q.Type_ = "array".toList ∧ (∃ sub, q.Items = some [("properties".toList, sub)]) ∧
      q.Properties = none ∧ q.Enum = [] ∧ q.Const = []) ∧
  (q.Const ≠ [] → q.Title = "kind".toList ∨ q.Title = "apiVersion".toList)

/-- The property `q` occurs in the output map at some nesting depth: as a
value of the map, or within the `Properties` or the `Items` of one of its
values. -/
inductive Occurs (q : Property) : GoMap Property → Prop where
  | here (m : GoMap Property) (k : Str) : (k, q) ∈ m → Occurs q m
  | inProperties (m : GoMap Property) (k : Str) (p : Property) (sub : GoMap Property) :
      (k, p) ∈ m → p.Properties = some sub → Occurs q sub → Occurs q m
  | inItems (m : GoMap Property) (k : Str) (p : Property) (items : GoMap (GoMap Property))
      (k2 : Str) (sub : GoMap Property) :
      (k, p) ∈ m → p.Items = some items → (k2, sub) ∈ items → Occurs q sub → Occurs q m

/-- Whether the loop body takes its last branch for the field: the field has
a first type tag and the tag is not `array`. -/
def isPrimitive (s : Schema) : Bool :=
  match s.Type_ with
  | [] => false
  | t :: _ => if t = "array".toList then false else true

/-- The properties of a definition that refers to itself. -/
def nodeProps : GoMap Schema :=
  [("value".toList, Schema.ofType "string".toList),
   ("next".toList, Schema.ofRef "pkg/api/v1.Node".toList)]

/-- A catalog with a reference cycle: `pkg/api/v1.Node` has an untyped field
that refers to `pkg/api/v1.Node`. -/
def nodeCatalog : Catalog :=
  [("pkg/api/v1.Node".toList, ⟨Schema.mk [] ["object".toList] [] [] none nodeProps⟩)]

/-- The properties of a self-referring definition that also has an `array`
field without an item schema. -/
def brokenNodeProps : GoMap Schema :=
  [("values".toList, Schema.ofType "array".toList),
   ("next".toList, Schema.ofRef "pkg/api/v1.Node".toList)]

/-- A catalog with a reference cycle through `brokenNodeProps`. -/
def brokenNodeCatalog : Catalog :=
  [("pkg/api/v1.Node".toList,
      ⟨Schema.mk [] ["object".toList] [] [] none brokenNodeProps⟩)]

/-! ## Equality of output maps

Two output maps are the same map when they bind the same keys to the same
properties, whatever the order of their bindings; the nested maps of the
properties are compared in the same way. -/

mutual
/-- The two properties have the same title, type, constant and enumerated
values, and their nested maps are the same maps. -/
inductive SameProperty : Property → Property → Prop where
  | mk (title type_ const : Str) (enum : List Iface)
      (ps qs : Option (GoMap Property)) (is js : Option (GoMap (GoMap Property))) :
      SameOptMap ps qs → SameOptItems is js →
      SameProperty (Property.mk title type_ const enum ps is)
        (Property.mk title type_ const enum qs js)
/-- The two maps bind the same keys, each to the same property. -/
inductive SameMap : GoMap Property → GoMap Property → Prop where
  | mk (m m2 : GoMap Property) :
      (∀ k, GoMap.get m k = none ↔ GoMap.get m2 k = none) →
      (∀ k p q, GoMap.get m k = some p → GoMap.get m2 k = some q → SameProperty p q) →
      SameMap m m2
/-- Both maps are nil, or both are set and are the same map. -/
inductive SameOptMap : Option (GoMap Property) → Option (GoMap Property) → Prop where
  | none : SameOptMap none none
  | some (m m2 : GoMap Property) : SameMap m m2 → SameOptMap (some m) (some m2)
/-- The two `Items` maps bind the same keys, each to the same map. -/
inductive SameItems : GoMap (GoMap Property) → GoMap (GoMap Property) → Prop where
  | mk (m m2 : GoMap (GoMap Property)) :
      (∀ k, GoMap.get m k = none ↔ GoMap.get m2 k = none) →
      (∀ k p q, GoMap.get m k = some p → GoMap.get m2 k = some q → SameMap p q) →
      SameItems m m2
/-- Both `Items` are nil, or both are set and are the same map. -/
inductive SameOptItems :
    Option (GoMap (GoMap Property)) → Option (GoMap (GoMap Property)) → Prop where
  | none : SameOptItems none none
  | some (m m2 : GoMap (GoMap Property)) : SameItems m m2 → SameOptItems (some m) (some m2)
end

/-- The properties of `pkg/api/v1.Widget`, visited in another order. -/
def widgetPropsReordered : GoMap Schema :=
  [("spec".toList, Schema.ofRef "pkg/api/v1.WidgetSpec".toList),
   ("kind".toList, Schema.ofType "string".toList),
   ("apiVersion".toList, Schema.ofType "string".toList)]

/-! ## Facts about the Go primitives -/

theorem Split_ne_nil (s : Str) (sep : Char) : strings.Split s sep ≠ [] := by
  induction s with
  | nil => simp [strings.Split]
  | cons c cs ih =>
    unfold strings.Split
    split
    · simp
    · split
      · simp
      · simp

theorem Split_of_not_mem (s : Str) (sep : Char) (h : sep ∉ s) :
    strings.Split s sep = [s] := by
  induction s with
  | nil => simp [strings.Split]
  | cons c cs ih =>
    have hc : ¬ c = sep := fun e => h (by simp [e])
    have hcs : sep ∉ cs := fun e => h (by simp [e])
    unfold strings.Split
    simp [hc, ih hcs]

theorem Split_append_sep (a b : Str) (sep : Char) :
    strings.Split (a ++ sep :: b) sep = strings.Split a sep ++ strings.Split b sep := by
  induction a with
  | nil =>
    show strings.Split (sep :: b) sep = strings.Split [] sep ++ strings.Split b sep
    simp [strings.Split]
  | cons c cs ih =>
    show strings.Split (c :: (cs ++ sep :: b)) sep = _
    by_cases hc : c = sep
    · rw [strings.Split, if_pos hc, ih]
      conv_rhs => rw [strings.Split, if_pos hc]
      simp
    · rw [strings.Split, if_neg hc, ih]
      conv_rhs => rw [strings.Split, if_neg hc]
      cases hs : strings.Split cs sep with
      | nil => exact absurd hs (Split_ne_nil cs sep)
      | cons piece pieces => simp

theorem index_len_sub_one {α : Type} (xs : List α) (x : α) :
    index (xs ++ [x]) (len (xs ++ [x]) - 1) = Res.ok x := by
  have h : len (xs ++ [x]) - 1 = (xs.length : Int) := by simp [len]
  rw [h]
  simp [index]

theorem get?_length_append_cons {α : Type} (xs : List α) (x : α) (ys : List α) :
    (xs ++ x :: ys).get? xs.length = some x := by
  induction xs with
  | nil => rfl
  | cons a as ih => simpa using ih

theorem index_len_sub_two {α : Type} (xs : List α) (x y : α) :
    index (xs ++ [x, y]) (len (xs ++ [x, y]) - 2) = Res.ok x := by
  have h : len (xs ++ [x, y]) - 2 = (xs.length : Int) := by
    simp [len]
  rw [h]
  simp only [index, Int.toNat_ofNat, get?_length_append_cons]
  simp

theorem GoMap.get_set_self {α : Type} (m : GoMap α) (k : Str) (v : α) :
    GoMap.get (GoMap.set m k v) k = some v := by
  induction m with
  | nil => simp [GoMap.set, GoMap.get]
  | cons b rest ih =>
    obtain ⟨k', v'⟩ := b
    by_cases hk : k' = k
    · simp [GoMap.set, GoMap.get, hk]
    · simp [GoMap.set, GoMap.get, hk, ih]

theorem GoMap.get_set_ne {α : Type} (m : GoMap α) (k j : Str) (v : α) (h : k ≠ j) :
    GoMap.get (GoMap.set m k v) j = GoMap.get m j := by
  induction m with
  | nil => simp [GoMap.set, GoMap.get, h]
  | cons b rest ih =>
    obtain ⟨k', v'⟩ := b
    by_cases hk : k' = k
    · subst hk
      simp [GoMap.set, GoMap.get, h]
    · by_cases hj : k' = j
      · subst hj
        simp only [GoMap.set, if_neg hk, GoMap.get, if_true]
      · simp only [GoMap.set, if_neg hk, GoMap.get, if_neg hj, ih]

theorem GoMap.keys_cons {α : Type} (k : Str) (v : α) (m : GoMap α) :
    GoMap.keys ((k, v) :: m) = k :: GoMap.keys m := rfl

theorem GoMap.get_eq_none_iff {α : Type} (m : GoMap α) (k : Str) :
    GoMap.get m k = none ↔ k ∉ GoMap.keys m := by
  induction m with
  | nil =>
    constructor
    · intro _ hmem
      cases hmem
    · intro _
      rfl
  | cons b rest ih =>
    obtain ⟨k', v'⟩ := b
    by_cases hk : k' = k
    · subst hk
      simp only [GoMap.get, if_true, GoMap.keys_cons, List.mem_cons, true_or,
        not_true_eq_false, reduceCtorEq]
    · have hk2 : ¬ k = k' := fun e => hk e.symm
      simp only [GoMap.get, if_neg hk, GoMap.keys_cons, List.mem_cons, hk2, false_or, ih]

theorem GoMap.get_of_mem {α : Type} (m : GoMap α) (k : Str) (v : α)
    (hwf : (GoMap.keys m).Nodup) (h : (k, v) ∈ m) : GoMap.get m k = some v := by
  induction m with
  | nil => simp at h
  | cons b rest ih =>
    obtain ⟨k', v'⟩ := b
    simp only [GoMap.keys_cons, List.nodup_cons] at hwf
    rcases List.mem_cons.mp h with e | e
    · cases e
      simp [GoMap.get]
    · have hne : ¬ k' = k := by
        intro e2
        subst e2
        exact hwf.1 (List.mem_map_of_mem Prod.fst e)
      simp only [GoMap.get, if_neg hne]
      exact ih hwf.2 e

theorem GoMap.mem_of_get {α : Type} (m : GoMap α) (k : Str) (v : α)
    (h : GoMap.get m k = some v) : (k, v) ∈ m := by
  induction m with
  | nil => simp [GoMap.get] at h
  | cons b rest ih =>
    obtain ⟨k', v'⟩ := b
    by_cases hk : k' = k
    · simp only [GoMap.get, if_pos hk, Option.some.injEq] at h
      subst hk; subst h
      simp
    · simp only [GoMap.get, if_neg hk] at h
      exact List.mem_cons_of_mem _ (ih h)

/-! ## The loop of `convert` -/

/-- An invariant of the bindings: it holds of the map the loop returns when
it holds of the map the loop starts from and of every property the body
produces. -/
theorem convertLoop_invariant (body : Str → Schema → Res Property)
    (I : Str → Property → Prop) (hbody : ∀ f s p, body f s = Res.ok p → I f p)
    (props : GoMap Schema) (acc out : GoMap Property)
    (hacc : ∀ f p, GoMap.get acc f = some p → I f p)
    (h : convertLoop body props acc = Res.ok out) :
    ∀ f p, GoMap.get out f = some p → I f p := by
  induction props generalizing acc with
  | nil =>
    simp only [convertLoop, Res.ok.injEq] at h
    subst h
    exact hacc
  | cons b rest ih =>
    obtain ⟨field, prop⟩ := b
    simp only [convertLoop] at h
    cases hb : body field prop with
    | ok property =>
      rw [hb] at h
      refine ih (GoMap.set acc field property) ?_ h
      intro f p hf
      by_cases e : field = f
      · subst e
        rw [GoMap.get_set_self] at hf
        cases hf
        exact hbody _ _ _ hb
      · rw [GoMap.get_set_ne _ _ _ _ e] at hf
        exact hacc f p hf
    | panic e => rw [hb] at h; cases h
    | exhausted => rw [hb] at h; cases h

/-- The keys of the map the loop returns: those of the map it starts from and
those it visits. -/
theorem convertLoop_keys (body : Str → Schema → Res Property)
    (props : GoMap Schema) (acc out : GoMap Property)
    (h : convertLoop body props acc = Res.ok out) (f : Str) :
    GoMap.get out f ≠ none ↔ (f ∈ GoMap.keys props ∨ GoMap.get acc f ≠ none) := by
  induction props generalizing acc with
  | nil =>
    simp only [convertLoop, Res.ok.injEq] at h
    subst h
    simp only [GoMap.keys, List.map_nil, List.not_mem_nil, false_or]
  | cons b rest ih =>
    obtain ⟨field, prop⟩ := b
    simp only [convertLoop] at h
    cases hb : body field prop with
    | ok property =>
      rw [hb] at h
      rw [ih _ h]
      by_cases e : field = f
      · subst e
        simp only [GoMap.keys_cons, List.mem_cons, true_or, GoMap.get_set_self, ne_eq,
          reduceCtorEq, not_false_eq_true, or_true]
      · have e2 : ¬ f = field := fun x => e x.symm
        rw [GoMap.get_set_ne _ _ _ _ e]
        simp only [GoMap.keys_cons, List.mem_cons, e2, false_or]
    | panic e => rw [hb] at h; cases h
    | exhausted => rw [hb] at h; cases h

/-- The loop leaves the bindings of the keys it does not visit as they
were. -/
theorem convertLoop_get_of_not_mem (body : Str → Schema → Res Property)
    (props : GoMap Schema) (acc out : GoMap Property)
    (h : convertLoop body props acc = Res.ok out) (f : Str)
    (hf : f ∉ GoMap.keys props) : GoMap.get out f = GoMap.get acc f := by
  induction props generalizing acc with
  | nil =>
    simp only [convertLoop, Res.ok.injEq] at h
    subst h
    rfl
  | cons b rest ih =>
    obtain ⟨field, prop⟩ := b
    simp only [GoMap.keys_cons, List.mem_cons, not_or] at hf
    simp only [convertLoop] at h
    cases hb : body field prop with
    | ok property =>
      rw [hb] at h
      rw [ih _ h hf.2]
      exact GoMap.get_set_ne _ _ _ _ (fun e => hf.1 e.symm)
    | panic e => rw [hb] at h; cases h
    | exhausted => rw [hb] at h; cases h

/-- On a map without a repeated key, the loop binds every field it visits to
the property the body produces for it. -/
theorem convertLoop_get_of_mem (body : Str → Schema → Res Property)
    (props : GoMap Schema) (acc out : GoMap Property)
    (hwf : (GoMap.keys props).Nodup)
    (h : convertLoop body props acc = Res.ok out) (f : Str) (s : Schema)
    (hf : (f, s) ∈ props) :
    ∃ p, body f s = Res.ok p ∧ GoMap.get out f = some p := by
  induction props generalizing acc with
  | nil => simp at hf
  | cons b rest ih =>
    obtain ⟨field, prop⟩ := b
    simp only [GoMap.keys_cons, List.nodup_cons] at hwf
    simp only [convertLoop] at h
    cases hb : body field prop with
    | ok property =>
      rw [hb] at h
      rcases List.mem_cons.mp hf with e | e
      · cases e
        refine ⟨property, hb, ?_⟩
        rw [convertLoop_get_of_not_mem body rest _ out h f hwf.1]
        exact GoMap.get_set_self _ _ _
      · exact ih _ hwf.2 h e
    | panic e => rw [hb] at h; cases h
    | exhausted => rw [hb] at h; cases h

/-- A call of `convert` that returns ran with a positive budget, and bound
every field to what the loop body produces for it. -/
theorem convert_get_of_mem (fuel : Nat) (cat : Catalog) (props : GoMap Schema)
    (api : Str) (out : GoMap Property) (hwf : (GoMap.keys props).Nodup)
    (h : convert fuel cat props api = Res.ok out) (f : Str) (s : Schema)
    (hf : (f, s) ∈ props) :
    ∃ n p, fuel = n + 1 ∧ convertField (convert n cat) cat api f s = Res.ok p ∧
      GoMap.get out f = some p := by
  cases fuel with
  | zero => simp [convert] at h
  | succ n =>
    simp only [convert] at h
    obtain ⟨p, hp, hg⟩ := convertLoop_get_of_mem _ props [] out hwf h f s hf
    exact ⟨n, p, rfl, hp, hg⟩

/-! ## The three branches of the loop body -/

/-- The branch of a field without a type tag. -/
theorem convertField_untyped (recur : GoMap Schema → Str → Res (GoMap Property))
    (cat : Catalog) (api f : Str) (s : Schema) (p : Property) (ht : s.Type_ = [])
    (h : convertField recur cat api f s = Res.ok p) :
    ∃ sub, recur (cat.at s.Ref).Schema.Properties s.Ref = Res.ok sub ∧
      p = Property.mk f "object".toList [] [] (some sub) none := by
  simp only [convertField, ht] at h
  cases hr : recur (cat.at s.Ref).Schema.Properties s.Ref with
  | ok sub =>
    rw [hr] at h
    simp only [Res.ok.injEq] at h
    exact ⟨sub, rfl, h.symm⟩
  | panic e => rw [hr] at h; cases h
  | exhausted => rw [hr] at h; cases h

/-- The branch of a field whose first type tag is `array`. -/
theorem convertField_array (recur : GoMap Schema → Str → Res (GoMap Property))
    (cat : Catalog) (api f : Str) (s item : Schema) (ts : List Str) (p : Property)
    (ht : s.Type_ = "array".toList :: ts) (hi : s.Items = some (some item))
    (h : convertField recur cat api f s = Res.ok p) :
    ∃ sub, recur (cat.at item.Ref).Schema.Properties item.Ref = Res.ok sub ∧
      p = Property.mk f "array".toList [] [] none (some [("properties".toList, sub)]) := by
  simp only [convertField, ht, if_true, hi] at h
  cases hr : recur (cat.at item.Ref).Schema.Properties item.Ref with
  | ok sub =>
    rw [hr] at h
    simp only [Res.ok.injEq] at h
    exact ⟨sub, rfl, h.symm⟩
  | panic e => rw [hr] at h; cases h
  | exhausted => rw [hr] at h; cases h

/-- The branch of a field whose first type tag is not `array`. -/
theorem convertField_primitive (recur : GoMap Schema → Str → Res (GoMap Property))
    (cat : Catalog) (api f : Str) (s : Schema) (t : Str) (ts : List Str) (p : Property)
    (ht : s.Type_ = t :: ts) (hna : t ≠ "array".toList)
    (h : convertField recur cat api f s = Res.ok p) :
    (f = "kind".toList ∧ ∃ av k, apiVersionAndKind api = Res.ok (av, k) ∧
        p = Property.mk f t k s.Enum none none) ∨
    (f = "apiVersion".toList ∧ ∃ av k, apiVersionAndKind api = Res.ok (av, k) ∧
        p = Property.mk f t av s.Enum none none) ∨
    (f ≠ "kind".toList ∧ f ≠ "apiVersion".toList ∧
        p = Property.mk f t [] s.Enum none none) := by
  simp only [convertField, ht, if_neg hna] at h
  by_cases hk : f = "kind".toList
  · left
    rw [if_pos hk] at h
    cases ha : apiVersionAndKind api with
    | ok r =>
      obtain ⟨av, k⟩ := r
      rw [ha] at h
      simp only [Res.ok.injEq] at h
      exact ⟨hk, av, k, rfl, h.symm⟩
    | panic e => rw [ha] at h; cases h
    | exhausted => rw [ha] at h; cases h
  · rw [if_neg hk] at h
    by_cases hv : f = "apiVersion".toList
    · right; left
      rw [if_pos hv] at h
      cases ha : apiVersionAndKind api with
      | ok r =>
        obtain ⟨av, k⟩ := r
        rw [ha] at h
        simp only [Res.ok.injEq] at h
        exact ⟨hv, av, k, rfl, h.symm⟩
      | panic e => rw [ha] at h; cases h
      | exhausted => rw [ha] at h; cases h
    · right; right
      rw [if_neg hv] at h
      simp only [Res.ok.injEq] at h
      exact ⟨hk, hv, h.symm⟩

/-! ## A larger depth budget does not change a result -/

theorem convertField_mono (r r' : GoMap Schema → Str → Res (GoMap Property))
    (hr : ∀ ps a o, r ps a = Res.ok o → r' ps a = Res.ok o)
    (cat : Catalog) (api f : Str) (s : Schema) (p : Property)
    (h : convertField r cat api f s = Res.ok p) :
    convertField r' cat api f s = Res.ok p := by
  cases ht : s.Type_ with
  | nil =>
    obtain ⟨sub, hsub, e⟩ := convertField_untyped r cat api f s p ht h
    simp only [convertField, ht, hr _ _ _ hsub, e]
  | cons t ts =>
    by_cases ha : t = "array".toList
    · subst ha
      cases hi : s.Items with
      | none => simp [convertField, ht, hi] at h
      | some i =>
        cases i with
        | none => simp [convertField, ht, hi] at h
        | some item =>
          obtain ⟨sub, hsub, e⟩ := convertField_array r cat api f s item ts p ht hi h
          simp only [convertField, ht, if_true, hi, hr _ _ _ hsub, e]
    · simp only [convertField, ht, if_neg ha] at h ⊢
      exact h

theorem convertLoop_mono (b b' : Str → Schema → Res Property)
    (hb : ∀ f s p, b f s = Res.ok p → b' f s = Res.ok p)
    (props : GoMap Schema) (acc out : GoMap Property)
    (h : convertLoop b props acc = Res.ok out) :
    convertLoop b' props acc = Res.ok out := by
  induction props generalizing acc with
  | nil => exact h
  | cons c rest ih =>
    obtain ⟨field, prop⟩ := c
    simp only [convertLoop] at h ⊢
    cases hc : b field prop with
    | ok property =>
      rw [hc] at h
      rw [hb _ _ _ hc]
      exact ih _ h
    | panic e => rw [hc] at h; cases h
    | exhausted => rw [hc] at h; cases h

theorem convert_succ (fuel : Nat) (cat : Catalog) (props : GoMap Schema) (api : Str)
    (out : GoMap Property) (h : convert fuel cat props api = Res.ok out) :
    convert (fuel + 1) cat props api = Res.ok out := by
  induction fuel generalizing props api out with
  | zero => simp [convert] at h
  | succ n ih =>
    rw [convert] at h
    rw [convert]
    exact convertLoop_mono _ _
      (fun f s p hp => convertField_mono _ _ (fun ps a o ho => ih ps a o ho) cat api f s p hp)
      props [] out h

theorem convert_mono (n m : Nat) (hnm : n ≤ m) (cat : Catalog) (props : GoMap Schema)
    (api : Str) (out : GoMap Property) (h : convert n cat props api = Res.ok out) :
    convert m cat props api = Res.ok out := by
  induction m with
  | zero =>
    have e : n = 0 := by omega
    subst e
    exact h
  | succ k ih =>
    by_cases hk : n ≤ k
    · exact convert_succ _ _ _ _ _ (ih hk)
    · have e : n = k + 1 := by omega
      subst e
      exact h

/-- The result of `convert` does not depend on the depth budget that
produced it. -/
theorem Converts_unique (cat : Catalog) (props : GoMap Schema) (api : Str)
    (a b : GoMap Property) (ha : Converts cat props api a) (hb : Converts cat props api b) :
    a = b := by
  obtain ⟨n, hn⟩ := ha
  obtain ⟨m, hm⟩ := hb
  have h1 := convert_mono n (max n m) (le_max_left _ _) cat props api a hn
  have h2 := convert_mono m (max n m) (le_max_right _ _) cat props api b hm
  rw [h1] at h2
  cases h2
  rfl

/-- Every property the loop body produces for a field is titled with the name
of the field. -/
theorem convertField_Title (recur : GoMap Schema → Str → Res (GoMap Property))
    (cat : Catalog) (api f : Str) (s : Schema) (p : Property)
    (h : convertField recur cat api f s = Res.ok p) : p.Title = f := by
  cases ht : s.Type_ with
  | nil =>
    obtain ⟨sub, _, e⟩ := convertField_untyped recur cat api f s p ht h
    rw [e]; rfl
  | cons t ts =>
    by_cases ha : t = "array".toList
    · subst ha
      cases hi : s.Items with
      | none => simp [convertField, ht, hi] at h
      | some i =>
        cases i with
        | none => simp [convertField, ht, hi] at h
        | some item =>
          obtain ⟨sub, _, e⟩ := convertField_array recur cat api f s item ts p ht hi h
          rw [e]; rfl
    · rcases convertField_primitive recur cat api f s t ts p ht ha h with
        ⟨_, _, _, _, e⟩ | ⟨_, _, _, _, e⟩ | ⟨_, _, e⟩ <;>
      · rw [e]; rfl

/-- A map that binds no key is the empty map. -/
theorem GoMap.eq_nil_of_keys {α : Type} (m : GoMap α) (h : ∀ f, f ∉ GoMap.keys m) :
    m = [] := by
  cases m with
  | nil => rfl
  | cons b rest =>
    obtain ⟨k, v⟩ := b
    exact absurd (List.mem_cons_self k _) (h k)

/-- With a positive budget, `convert` on the empty property map returns the
empty map. -/
theorem convert_nil (n : Nat) (cat : Catalog) (api : Str) :
    convert (n + 1) cat [] api = Res.ok [] := rfl

/-- The catalog answers an absent key with a definition without
properties. -/
theorem Catalog.at_absent (cat : Catalog) (r : Str) (h : GoMap.get cat r = none) :
    (cat.at r).Schema.Properties = [] := by
  simp only [Catalog.at, h]
  rfl

/-! ## When the converter returns -/

/-- The loop body returns for a safe field when its recursive call, if it
makes one, returns. -/
theorem convertField_returns (recur : GoMap Schema → Str → Res (GoMap Property))
    (cat : Catalog) (api f : Str) (s : Schema) (hs : fieldSafe api f s = true)
    (hr : ∀ r, fieldRef s = some r → ∃ sub, recur (cat.at r).Schema.Properties r = Res.ok sub) :
    ∃ p, convertField recur cat api f s = Res.ok p := by
  cases ht : s.Type_ with
  | nil =>
    obtain ⟨sub, hsub⟩ := hr s.Ref (by simp only [fieldRef, ht])
    exact ⟨Property.mk f "object".toList [] [] (some sub) none,
      by simp only [convertField, ht, hsub]⟩
  | cons t ts =>
    by_cases ha : t = "array".toList
    · subst ha
      cases hi : s.Items with
      | none => simp [fieldSafe, ht, hi] at hs
      | some i =>
        cases i with
        | none => simp [fieldSafe, ht, hi] at hs
        | some item =>
          obtain ⟨sub, hsub⟩ := hr item.Ref (by simp only [fieldRef, ht, if_true, hi])
          exact ⟨Property.mk f "array".toList [] [] none (some [("properties".toList, sub)]),
            by simp only [convertField, ht, if_true, hi, hsub]⟩
    · simp only [fieldSafe, ht, if_neg ha] at hs
      simp only [convertField, ht, if_neg ha]
      by_cases hk : f = "kind".toList
      · rw [if_pos (Or.inl hk)] at hs
        rw [if_pos hk]
        cases hav : apiVersionAndKind api with
        | ok r => exact ⟨_, rfl⟩
        | panic e => rw [hav] at hs; cases hs
        | exhausted => rw [hav] at hs; cases hs
      · rw [if_neg hk]
        by_cases hv : f = "apiVersion".toList
        · rw [if_pos (Or.inr hv)] at hs
          rw [if_pos hv]
          cases hav : apiVersionAndKind api with
          | ok r => exact ⟨_, rfl⟩
          | panic e => rw [hav] at hs; cases hs
          | exhausted => rw [hav] at hs; cases hs
        · rw [if_neg hv]
          exact ⟨_, rfl⟩

/-- The loop returns when its body returns for every field it visits. -/
theorem convertLoop_returns (body : Str → Schema → Res Property) (props : GoMap Schema)
    (acc : GoMap Property) (hb : ∀ f s, (f, s) ∈ props → ∃ p, body f s = Res.ok p) :
    ∃ out, convertLoop body props acc = Res.ok out := by
  induction props generalizing acc with
  | nil => exact ⟨acc, rfl⟩
  | cons c rest ih =>
    obtain ⟨field, prop⟩ := c
    obtain ⟨p, hp⟩ := hb field prop (List.mem_cons_self _ _)
    obtain ⟨out, ho⟩ := ih (GoMap.set acc field p)
      (fun f s hm => hb f s (List.mem_cons_of_mem _ hm))
    exact ⟨out, by simp only [convertLoop, hp, ho]⟩

/-- One depth budget serves all the recursive calls that the fields of a
property map make, when each of them returns with some budget. -/
theorem uniform_budget (cat : Catalog) (props : GoMap Schema)
    (h : ∀ f s r, (f, s) ∈ props → fieldRef s = some r →
      ∃ n sub, convert n cat (cat.at r).Schema.Properties r = Res.ok sub) :
    ∃ N, ∀ f s r, (f, s) ∈ props → fieldRef s = some r →
      ∃ sub, convert N cat (cat.at r).Schema.Properties r = Res.ok sub := by
  induction props with
  | nil => exact ⟨0, fun f s r hm => by cases hm⟩
  | cons c rest ih =>
    obtain ⟨field, prop⟩ := c
    obtain ⟨N, hN⟩ := ih (fun f s r hm hr => h f s r (List.mem_cons_of_mem _ hm) hr)
    cases hfr : fieldRef prop with
    | none =>
      refine ⟨N, fun f s r hm hr => ?_⟩
      rcases List.mem_cons.mp hm with e | e
      · cases e
        rw [hfr] at hr
        cases hr
      · exact hN f s r e hr
    | some r0 =>
      obtain ⟨n, sub, hsub⟩ := h field prop r0 (List.mem_cons_self _ _) hfr
      refine ⟨max n N, fun f s r hm hr => ?_⟩
      rcases List.mem_cons.mp hm with e | e
      · cases e
        rw [hfr] at hr
        cases hr
        exact ⟨sub, convert_mono n _ (le_max_left _ _) _ _ _ _ hsub⟩
      · obtain ⟨sub2, hsub2⟩ := hN f s r e hr
        exact ⟨sub2, convert_mono N _ (le_max_right _ _) _ _ _ _ hsub2⟩

/-- The function `convert` returns on a safe property map when every
recursive call that its fields make returns. -/
theorem convert_returns_of_fields (cat : Catalog) (props : GoMap Schema) (api : Str)
    (hs : propsSafe api props = true)
    (h : ∀ f s r, (f, s) ∈ props → fieldRef s = some r →
      ∃ n sub, convert n cat (cat.at r).Schema.Properties r = Res.ok sub) :
    ∃ n out, convert n cat props api = Res.ok out := by
  obtain ⟨N, hN⟩ := uniform_budget cat props h
  have hsafe : ∀ f s, (f, s) ∈ props → fieldSafe api f s = true := by
    intro f s hm
    exact (List.all_eq_true.mp hs) (f, s) hm
  obtain ⟨out, ho⟩ := convertLoop_returns
    (convertField (convert N cat) cat api) props []
    (fun f s hm => convertField_returns _ cat api f s (hsafe f s hm)
      (fun r hr => hN f s r hm hr))
  exact ⟨N + 1, out, ho⟩

/-- In a catalog without reference cycles, `convert` returns on the
definition of every reference from which only safe definitions are
reached. -/
theorem convert_returns_on_definition (cat : Catalog) (hac : Acyclic cat) (r : Str)
    (hsafe : ∀ r1 d, Relation.ReflTransGen (RefersTo cat) r r1 →
      GoMap.get cat r1 = some d → propsSafe r1 d.Schema.Properties = true) :
    ∃ n out, convert n cat (cat.at r).Schema.Properties r = Res.ok out := by
  let K := { x : Str // x ∈ GoMap.keys cat }
  let R : K → K → Prop := fun y x => Relation.TransGen (RefersTo cat) x.1 y.1
  haveI : IsTrans K R := ⟨fun a b c h1 h2 => Relation.TransGen.trans h2 h1⟩
  haveI : IsIrrefl K R := ⟨fun a h => hac a.1 h⟩
  have hwf : WellFounded R := Finite.wellFounded_of_trans_of_irrefl R
  have key : ∀ x : K,
      (∀ r1 d, Relation.ReflTransGen (RefersTo cat) x.1 r1 →
        GoMap.get cat r1 = some d → propsSafe r1 d.Schema.Properties = true) →
      ∃ n out, convert n cat (cat.at x.1).Schema.Properties x.1 = Res.ok out := by
    intro x
    induction x using hwf.induction with
    | _ x ih =>
    intro hx
    cases hd : GoMap.get cat x.1 with
    | none => exact absurd x.2 ((GoMap.get_eq_none_iff cat x.1).mp hd)
    | some d =>
      have hprops : (cat.at x.1).Schema.Properties = d.Schema.Properties := by
        simp only [Catalog.at, hd]
      rw [hprops]
      refine convert_returns_of_fields cat _ x.1
        (hx x.1 d Relation.ReflTransGen.refl hd) ?_
      intro f s r2 hm hr
      have hedge : RefersTo cat x.1 r2 := ⟨d, f, s, hd, hm, hr⟩
      cases hd2 : GoMap.get cat r2 with
      | none =>
        refine ⟨1, [], ?_⟩
        rw [Catalog.at_absent cat r2 hd2]
        rfl
      | some d2 =>
        have hmem : r2 ∈ GoMap.keys cat := by
          by_contra hn
          rw [(GoMap.get_eq_none_iff cat r2).mpr hn] at hd2
          cases hd2
        exact ih ⟨r2, hmem⟩ (Relation.TransGen.single hedge)
          (fun r1 d1 hreach hd1 => hx r1 d1 (Relation.ReflTransGen.head hedge hreach) hd1)
  cases hd : GoMap.get cat r with
  | none =>
    refine ⟨1, [], ?_⟩
    rw [Catalog.at_absent cat r hd]
    rfl
  | some d =>
    have hmem : r ∈ GoMap.keys cat := by
      by_contra hn
      rw [(GoMap.get_eq_none_iff cat r).mpr hn] at hd
      cases hd
    exact key ⟨r, hmem⟩ hsafe

/-- A ranking of the references that decreases along `RefersTo` shows that the
catalog has no reference cycle. -/
theorem Acyclic_of_rank (cat : Catalog) (rank : Str → Nat)
    (h : ∀ r r2, RefersTo cat r r2 → rank r2 < rank r) : Acyclic cat := by
  have ht : ∀ r r2, Relation.TransGen (RefersTo cat) r r2 → rank r2 < rank r := by
    intro r r2 hp
    induction hp with
    | single e => exact h _ _ e
    | tail _ e ih => exact lt_trans (h _ _ e) ih
  intro r hr
  exact lt_irrefl _ (ht r r hr)

/-! ## The resource namer -/

theorem apiVersionAndKind_of_Split (api : Str) (pre : List Str) (g last v k : Str)
    (rest : List Str) (h1 : strings.Split api '/' = pre ++ [g, last])
    (h2 : strings.Split last '.' = v :: k :: rest) :
    apiVersionAndKind api = Res.ok (g ++ '/' :: v, k) := by
  have hlen : ¬ len (pre ++ [g, last]) < 1 := by
    simp only [len, List.length_append, List.length_cons, List.length_nil]
    push_cast
    omega
  have hlast : index (pre ++ [g, last]) (len (pre ++ [g, last]) - 1) = Res.ok last := by
    have e : pre ++ [g, last] = (pre ++ [g]) ++ [last] := by simp
    rw [e]
    exact index_len_sub_one _ _
  have hk : index (v :: k :: rest) 1 = Res.ok k := by simp [index]
  have hv : index (v :: k :: rest) 0 = Res.ok v := by simp [index]
  simp only [apiVersionAndKind, h1, if_neg hlen, hlast, h2, hk, hv, index_len_sub_two]

theorem resourceName_of_apiVersionAndKind (api apiVersion kind : Str)
    (h : apiVersionAndKind api = Res.ok (apiVersion, kind)) :
    resourceName api = Res.ok (strings.ReplaceAll apiVersion '/' '_' ++ '_' :: kind) := by
  simp only [resourceName, h]

theorem ReplaceAll_of_not_mem (s : Str) (old new : Char) (h : old ∉ s) :
    strings.ReplaceAll s old new = s := by
  induction s with
  | nil => rfl
  | cons c cs ih =>
    have hc : ¬ c = old := fun e => h (by simp [e])
    have hcs : old ∉ cs := fun e => h (by simp [e])
    have ih2 := ih hcs
    simp only [strings.ReplaceAll] at ih2 ⊢
    simp [hc, ih2]

theorem ReplaceAll_append (a b : Str) (old new : Char) :
    strings.ReplaceAll (a ++ b) old new =
      strings.ReplaceAll a old new ++ strings.ReplaceAll b old new := by
  simp [strings.ReplaceAll]

/-- The namer on a reference `G/V.K` that has no prefix. -/
theorem namer_shape_bare (G V K : Str) (hG : '/' ∉ G) (hV : '/' ∉ V ∧ '.' ∉ V)
    (hK : '/' ∉ K ∧ '.' ∉ K) :
    apiVersionAndKind (G ++ '/' :: (V ++ '.' :: K)) = Res.ok (G ++ '/' :: V, K) ∧
    resourceName (G ++ '/' :: (V ++ '.' :: K)) = Res.ok (G ++ '_' :: (V ++ '_' :: K)) := by
  have hlast : '/' ∉ V ++ '.' :: K := by
    simp [hV.1, hK.1]
  have h1 : strings.Split (G ++ '/' :: (V ++ '.' :: K)) '/' = [] ++ [G, V ++ '.' :: K] := by
    rw [Split_append_sep, Split_of_not_mem G '/' hG, Split_of_not_mem _ '/' hlast]
    rfl
  have h2 : strings.Split (V ++ '.' :: K) '.' = V :: K :: [] := by
    rw [Split_append_sep, Split_of_not_mem V '.' hV.2, Split_of_not_mem K '.' hK.2]
    rfl
  have h := apiVersionAndKind_of_Split _ _ _ _ _ _ _ h1 h2
  refine ⟨h, ?_⟩
  rw [resourceName_of_apiVersionAndKind _ _ _ h]
  have e : G ++ '/' :: V = G ++ ['/'] ++ V := by simp
  rw [e, ReplaceAll_append, ReplaceAll_append, ReplaceAll_of_not_mem G _ _ hG,
    ReplaceAll_of_not_mem V _ _ hV.1]
  simp [strings.ReplaceAll]

/-- The namer on a reference `P/G/V.K` with a prefix `P`. -/
theorem namer_shape_prefixed (P G V K : Str) (hG : '/' ∉ G) (hV : '/' ∉ V ∧ '.' ∉ V)
    (hK : '/' ∉ K ∧ '.' ∉ K) :
    apiVersionAndKind (P ++ '/' :: (G ++ '/' :: (V ++ '.' :: K))) = Res.ok (G ++ '/' :: V, K) ∧
    resourceName (P ++ '/' :: (G ++ '/' :: (V ++ '.' :: K))) =
      Res.ok (G ++ '_' :: (V ++ '_' :: K)) := by
  have hlast : '/' ∉ V ++ '.' :: K := by
    simp [hV.1, hK.1]
  have h1 : strings.Split (P ++ '/' :: (G ++ '/' :: (V ++ '.' :: K))) '/' =
      strings.Split P '/' ++ [G, V ++ '.' :: K] := by
    rw [Split_append_sep, Split_append_sep, Split_of_not_mem G '/' hG,
      Split_of_not_mem _ '/' hlast]
    rfl
  have h2 : strings.Split (V ++ '.' :: K) '.' = V :: K :: [] := by
    rw [Split_append_sep, Split_of_not_mem V '.' hV.2, Split_of_not_mem K '.' hK.2]
    rfl
  have h := apiVersionAndKind_of_Split _ _ _ _ _ _ _ h1 h2
  refine ⟨h, ?_⟩
  rw [resourceName_of_apiVersionAndKind _ _ _ h]
  have e : G ++ '/' :: V = G ++ ['/'] ++ V := by simp
  rw [e, ReplaceAll_append, ReplaceAll_append, ReplaceAll_of_not_mem G _ _ hG,
    ReplaceAll_of_not_mem V _ _ hV.1]
  simp [strings.ReplaceAll]

theorem exists_two_last {α : Type} (l : List α) (h : 2 ≤ l.length) :
    ∃ pre g last, l = pre ++ [g, last] := by
  rcases List.eq_nil_or_concat l with e | ⟨init, last, e⟩
  · subst e
    simp at h
  · subst e
    rcases List.eq_nil_or_concat init with e | ⟨pre, g, e⟩
    · subst e
      simp at h
    · subst e
      exact ⟨pre, g, last, by simp⟩

theorem Split_length_of_mem (s : Str) (sep : Char) (h : sep ∈ s) :
    2 ≤ (strings.Split s sep).length := by
  obtain ⟨a, b, e⟩ := List.append_of_mem h
  subst e
  rw [Split_append_sep, List.length_append]
  have ha : 0 < (strings.Split a sep).length :=
    List.length_pos.mpr (Split_ne_nil a sep)
  have hb : 0 < (strings.Split b sep).length :=
    List.length_pos.mpr (Split_ne_nil b sep)
  omega

theorem Split_two_of_mem (s : Str) (sep : Char) (h : sep ∈ s) :
    ∃ v k rest, strings.Split s sep = v :: k :: rest := by
  have hl := Split_length_of_mem s sep h
  cases hs : strings.Split s sep with
  | nil => rw [hs] at hl; simp at hl
  | cons v tl =>
    cases tl with
    | nil => rw [hs] at hl; simp at hl
    | cons k rest => exact ⟨v, k, rest, rfl⟩

theorem apiVersionAndKind_of_no_dot (api : Str) (pre : List Str) (g last : Str)
    (h1 : strings.Split api '/' = pre ++ [g, last]) (h2 : '.' ∉ last) :
    apiVersionAndKind api = Res.panic Panic.indexOutOfRange := by
  have hlen : ¬ len (pre ++ [g, last]) < 1 := by
    simp only [len, List.length_append, List.length_cons, List.length_nil]
    push_cast
    omega
  have hlast : index (pre ++ [g, last]) (len (pre ++ [g, last]) - 1) = Res.ok last := by
    have e : pre ++ [g, last] = (pre ++ [g]) ++ [last] := by simp
    rw [e]
    exact index_len_sub_one _ _
  have hk : index [last] 1 = (Res.panic Panic.indexOutOfRange : Res Str) := by
    simp [index]
  simp only [apiVersionAndKind, h1, if_neg hlen, hlast, Split_of_not_mem last '.' h2, hk]

theorem lastSegment_of_Split (api : Str) (pre : List Str) (g last : Str)
    (h1 : strings.Split api '/' = pre ++ [g, last]) : lastSegment api = last := by
  have e : pre ++ [g, last] = (pre ++ [g]) ++ [last] := by simp
  rw [lastSegment, h1, e, List.getLastD_concat]

/-- The guard `len(strs) < 1` of `apiVersionAndKind` never fires:
`strings.Split` returns at least one piece. -/
theorem apiVersionAndKind_guard_never_fires (api : Str) :
    ¬ len (strings.Split api '/') < 1 := by
  have h : 0 < (strings.Split api '/').length :=
    List.length_pos.mpr (Split_ne_nil api '/')
  simp only [len]
  omega

/-- A reference without a path separator makes `apiVersionAndKind` fail, with
or without a `.` in it. -/
theorem apiVersionAndKind_without_separator :
    apiVersionAndKind "v1.Widget".toList = Res.panic Panic.indexOutOfRange ∧
    apiVersionAndKind "Widget".toList = Res.panic Panic.indexOutOfRange ∧
    apiVersionAndKind [] = Res.panic Panic.indexOutOfRange :=
  ⟨by decide, by decide, by decide⟩

/-- C1: for every reference of the shape `P/G/V.K` (the prefix `P` absent or
arbitrary, `G`, `V`, `K` without `/`, and `V`, `K` without `.`),
`apiVersionAndKind` returns apiVersion `G/V` and kind `K`, and `resourceName`
returns `G_V_K`. -/
theorem namer_on_shaped_reference (P : Option Str) (G V K : Str) (hG : '/' ∉ G)
    (hV : '/' ∉ V ∧ '.' ∉ V) (hK : '/' ∉ K ∧ '.' ∉ K) :
    apiVersionAndKind (shapedRef P G V K) = Res.ok (G ++ '/' :: V, K) ∧
    resourceName (shapedRef P G V K) = Res.ok (G ++ '_' :: (V ++ '_' :: K)) := by
  cases P with
  | none => exact namer_shape_bare G V K hG hV hK
  | some P => exact namer_shape_prefixed P G V K hG hV hK

/-- The reference `pkg/api/v1.Widget` gives apiVersion `api/v1`, kind `Widget`
and resource name `api_v1_Widget`. -/
theorem namer_on_shaped_reference_witness :
    shapedRef (some "pkg".toList) "api".toList "v1".toList "Widget".toList =
      "pkg/api/v1.Widget".toList ∧
    apiVersionAndKind "pkg/api/v1.Widget".toList =
      Res.ok ("api/v1".toList, "Widget".toList) ∧
    resourceName "pkg/api/v1.Widget".toList = Res.ok "api_v1_Widget".toList :=
  ⟨by decide,
    namer_on_shaped_reference (some "pkg".toList) "api".toList "v1".toList "Widget".toList
      (by decide) (by decide) (by decide)⟩

/-- C9, amended: for every reference that contains a path separator `/`,
`apiVersionAndKind` and `resourceName` return a value when the last segment
contains a `.`, and both fail with an index out of range when it contains
none. -/
theorem namer_returns_iff_dot (api : Str) (hsep : '/' ∈ api) :
    ('.' ∈ lastSegment api →
      ∃ av k, apiVersionAndKind api = Res.ok (av, k) ∧
        resourceName api = Res.ok (strings.ReplaceAll av '/' '_' ++ '_' :: k)) ∧
    ('.' ∉ lastSegment api →
      apiVersionAndKind api = Res.panic Panic.indexOutOfRange ∧
      resourceName api = Res.panic Panic.indexOutOfRange) := by
  obtain ⟨pre, g, last, h1⟩ := exists_two_last _ (Split_length_of_mem api '/' hsep)
  rw [lastSegment_of_Split api pre g last h1]
  constructor
  · intro hdot
    obtain ⟨v, k, rest, h2⟩ := Split_two_of_mem last '.' hdot
    have h := apiVersionAndKind_of_Split api pre g last v k rest h1 h2
    exact ⟨_, _, h, resourceName_of_apiVersionAndKind _ _ _ h⟩
  · intro hdot
    have h := apiVersionAndKind_of_no_dot api pre g last h1 hdot
    refine ⟨h, ?_⟩
    simp only [resourceName, h]

/-- The reference `pkg/api/v1.Widget` has a separator, and a `.` in its last
segment `v1.Widget`: both functions return on it. -/
theorem namer_returns_iff_dot_witness :
    '.' ∈ lastSegment "pkg/api/v1.Widget".toList ∧
    ∃ av k, apiVersionAndKind "pkg/api/v1.Widget".toList = Res.ok (av, k) ∧
      resourceName "pkg/api/v1.Widget".toList =
        Res.ok (strings.ReplaceAll av '/' '_' ++ '_' :: k) :=
  ⟨by decide,
    (namer_returns_iff_dot "pkg/api/v1.Widget".toList (by decide)).1 (by decide)⟩

/-- C9 fails as stated: the reference `pkg/api/Widget`, whose last segment has
no `.`, makes `apiVersionAndKind` and `resourceName` fail with an index out
of range. -/
theorem namer_fails_without_dot :
    apiVersionAndKind "pkg/api/Widget".toList = Res.panic Panic.indexOutOfRange ∧
    resourceName "pkg/api/Widget".toList = Res.panic Panic.indexOutOfRange :=
  ⟨by decide, by decide⟩

/-! ## The converter, field by field -/

/-- C2: when `convert` returns, a primitive field named `kind` carries the
constant kind that `apiVersionAndKind` derives from the context reference, a
primitive field named `apiVersion` carries the derived group/version, and
every other primitive field has an empty constant. -/
theorem convert_identity_constants (cat : Catalog) (props : GoMap Schema) (api : Str)
    (out : GoMap Property) (hwf : (GoMap.keys props).Nodup)
    (h : Converts cat props api out) :
    (∀ s t ts, ("kind".toList, s) ∈ props → s.Type_ = t :: ts → t ≠ "array".toList →
      ∃ av k p, apiVersionAndKind api = Res.ok (av, k) ∧
        GoMap.get out "kind".toList = some p ∧ p.Const = k) ∧
    (∀ s t ts, ("apiVersion".toList, s) ∈ props → s.Type_ = t :: ts →
      t ≠ "array".toList →
      ∃ av k p, apiVersionAndKind api = Res.ok (av, k) ∧
        GoMap.get out "apiVersion".toList = some p ∧ p.Const = av) ∧
    (∀ f s t ts, (f, s) ∈ props → s.Type_ = t :: ts → t ≠ "array".toList →
      f ≠ "kind".toList → f ≠ "apiVersion".toList →
      ∃ p, GoMap.get out f = some p ∧ p.Const = []) := by
  obtain ⟨fuel, hc⟩ := h
  refine ⟨?_, ?_, ?_⟩
  · intro s t ts hf ht hna
    obtain ⟨n, p, _, hp, hg⟩ := convert_get_of_mem fuel cat props api out hwf hc _ s hf
    rcases convertField_primitive _ cat api _ s t ts p ht hna hp with
      ⟨_, av, k, ha, e⟩ | ⟨hv, _⟩ | ⟨hk, _⟩
    · exact ⟨av, k, p, ha, hg, by rw [e]; rfl⟩
    · exact absurd hv (by decide)
    · exact absurd rfl hk
  · intro s t ts hf ht hna
    obtain ⟨n, p, _, hp, hg⟩ := convert_get_of_mem fuel cat props api out hwf hc _ s hf
    rcases convertField_primitive _ cat api _ s t ts p ht hna hp with
      ⟨hk, _⟩ | ⟨_, av, k, ha, e⟩ | ⟨_, hv, _⟩
    · exact absurd hk (by decide)
    · exact ⟨av, k, p, ha, hg, by rw [e]; rfl⟩
    · exact absurd rfl hv
  · intro f s t ts hf ht hna hk hv
    obtain ⟨n, p, _, hp, hg⟩ := convert_get_of_mem fuel cat props api out hwf hc _ s hf
    rcases convertField_primitive _ cat api _ s t ts p ht hna hp with
      ⟨hk2, _⟩ | ⟨hv2, _⟩ | ⟨_, _, e⟩
    · exact absurd hk2 hk
    · exact absurd hv2 hv
    · exact ⟨p, hg, by rw [e]; rfl⟩

/-- The sample document of `pkg/api/v1.Widget`: its field `kind` has the
constant `Widget` and its field `apiVersion` the constant `api/v1`. -/
theorem convert_identity_constants_witness :
    (∃ av k p, apiVersionAndKind "pkg/api/v1.Widget".toList = Res.ok (av, k) ∧
        GoMap.get widgetOut "kind".toList = some p ∧ p.Const = k) ∧
    (∃ av k p, apiVersionAndKind "pkg/api/v1.Widget".toList = Res.ok (av, k) ∧
        GoMap.get widgetOut "apiVersion".toList = some p ∧ p.Const = av) :=
  have h := convert_identity_constants widgetCatalog widgetProps
    "pkg/api/v1.Widget".toList widgetOut (by decide) ⟨2, rfl⟩
  ⟨h.1 (Schema.ofType "string".toList) "string".toList [] (by simp [widgetProps]) rfl
      (by decide),
    h.2.1 (Schema.ofType "string".toList) "string".toList [] (by simp [widgetProps]) rfl
      (by decide)⟩

/-- C3: when `convert` returns, a field without a type tag that carries the
reference `r` is bound to an `object` property whose `Properties` are what
`convert` returns on the properties of the definition the catalog holds for
`r`, with `r` as the context. -/
theorem convert_untyped_field (cat : Catalog) (props : GoMap Schema) (api : Str)
    (out : GoMap Property) (hwf : (GoMap.keys props).Nodup)
    (h : Converts cat props api out) (f : Str) (s : Schema) (hf : (f, s) ∈ props)
    (ht : s.Type_ = []) :
    ∃ sub p, Converts cat (cat.at s.Ref).Schema.Properties s.Ref sub ∧
      GoMap.get out f = some p ∧ p.Type_ = "object".toList ∧ p.Properties = some sub := by
  obtain ⟨fuel, hc⟩ := h
  obtain ⟨n, p, _, hp, hg⟩ := convert_get_of_mem fuel cat props api out hwf hc f s hf
  obtain ⟨sub, hsub, e⟩ := convertField_untyped _ cat api f s p ht hp
  exact ⟨sub, p, ⟨n, hsub⟩, hg, by rw [e]; rfl, by rw [e]; rfl⟩

/-- The field `spec` of the sample document of `pkg/api/v1.Widget` is an
object with the converted properties of `pkg/api/v1.WidgetSpec`. -/
theorem convert_untyped_field_witness :
    ∃ sub p, Converts widgetCatalog
        (widgetCatalog.at "pkg/api/v1.WidgetSpec".toList).Schema.Properties
        "pkg/api/v1.WidgetSpec".toList sub ∧
      GoMap.get widgetOut "spec".toList = some p ∧ p.Type_ = "object".toList ∧
      p.Properties = some sub :=
  convert_untyped_field widgetCatalog widgetProps "pkg/api/v1.Widget".toList widgetOut
    (by decide) ⟨2, rfl⟩ "spec".toList (Schema.ofRef "pkg/api/v1.WidgetSpec".toList)
    (by simp [widgetProps]) rfl

/-- C4: when `convert` returns, a field whose first type tag is `array` and
whose item schema is present with reference `r` is bound to an `array`
property whose `Items` have the single key `properties`, bound to what
`convert` returns on the properties of the definition the catalog holds for
`r`, with `r` as the context. -/
theorem convert_array_field (cat : Catalog) (props : GoMap Schema) (api : Str)
    (out : GoMap Property) (hwf : (GoMap.keys props).Nodup)
    (h : Converts cat props api out) (f : Str) (s item : Schema) (ts : List Str)
    (hf : (f, s) ∈ props) (ht : s.Type_ = "array".toList :: ts)
    (hi : s.Items = some (some item)) :
    ∃ sub p, Converts cat (cat.at item.Ref).Schema.Properties item.Ref sub ∧
      GoMap.get out f = some p ∧ p.Type_ = "array".toList ∧
      p.Items = some [("properties".toList, sub)] := by
  obtain ⟨fuel, hc⟩ := h
  obtain ⟨n, p, _, hp, hg⟩ := convert_get_of_mem fuel cat props api out hwf hc f s hf
  obtain ⟨sub, hsub, e⟩ := convertField_array _ cat api f s item ts p ht hi hp
  exact ⟨sub, p, ⟨n, hsub⟩, hg, by rw [e]; rfl, by rw [e]; rfl⟩

/-- The field `ports` of the sample gadget is an array whose items hold the
converted properties of `pkg/api/v1.Port`. -/
theorem convert_array_field_witness :
    ∃ sub p, Converts gadgetCatalog
        (gadgetCatalog.at "pkg/api/v1.Port".toList).Schema.Properties
        "pkg/api/v1.Port".toList sub ∧
      GoMap.get gadgetOut "ports".toList = some p ∧ p.Type_ = "array".toList ∧
      p.Items = some [("properties".toList, sub)] :=
  convert_array_field gadgetCatalog gadgetProps "pkg/api/v1.Gadget".toList gadgetOut
    (by decide) ⟨2, rfl⟩ "ports".toList
    (Schema.arrayOf (Schema.ofRef "pkg/api/v1.Port".toList))
    (Schema.ofRef "pkg/api/v1.Port".toList) [] (by simp [gadgetProps]) rfl rfl

/-- C5: when `convert` returns, a field whose first type tag `t` is not
`array` is bound to a property of type `t` that carries the enumerated values
of the field unchanged and has neither `Properties` nor `Items`. -/
theorem convert_primitive_field (cat : Catalog) (props : GoMap Schema) (api : Str)
    (out : GoMap Property) (hwf : (GoMap.keys props).Nodup)
    (h : Converts cat props api out) (f : Str) (s : Schema) (t : Str) (ts : List Str)
    (hf : (f, s) ∈ props) (ht : s.Type_ = t :: ts) (hna : t ≠ "array".toList) :
    ∃ p, GoMap.get out f = some p ∧ p.Type_ = t ∧ p.Enum = s.Enum ∧
      p.Properties = none ∧ p.Items = none := by
  obtain ⟨fuel, hc⟩ := h
  obtain ⟨n, p, _, hp, hg⟩ := convert_get_of_mem fuel cat props api out hwf hc f s hf
  rcases convertField_primitive _ cat api f s t ts p ht hna hp with
    ⟨_, _, _, _, e⟩ | ⟨_, _, _, _, e⟩ | ⟨_, _, e⟩ <;>
  exact ⟨p, hg, by rw [e]; rfl, by rw [e]; rfl, by rw [e]; rfl, by rw [e]; rfl⟩

/-- The field `phase` of the sample gadget keeps its type `string` and its
two enumerated values. -/
theorem convert_primitive_field_witness :
    ∃ p, GoMap.get gadgetOut "phase".toList = some p ∧ p.Type_ = "string".toList ∧
      p.Enum = gadgetPhases ∧ p.Properties = none ∧ p.Items = none :=
  convert_primitive_field gadgetCatalog gadgetProps "pkg/api/v1.Gadget".toList gadgetOut
    (by decide) ⟨2, rfl⟩ "phase".toList (Schema.ofEnum "string".toList gadgetPhases)
    "string".toList [] (by simp [gadgetProps]) rfl (by decide)

/-! ## The document of the sample catalog -/

/-- C6: in the catalog that holds `pkg/api/v1.Widget` (fields `kind` and
`apiVersion` of type string, field `spec` referring to
`pkg/api/v1.WidgetSpec`) and `pkg/api/v1.WidgetSpec` (field `name` of type
string), the document built for `pkg/api/v1.Widget` is titled
`api_v1_Widget`, has type `object` and the description of the definition, its
`kind` has the constant `Widget`, its `apiVersion` the constant `api/v1`, and
its `spec` is an object with a nested property `name` of type string. -/
theorem widget_document (n : Nat) :
    ∃ doc, mainBody (n + 2) widgetCatalog "pkg/api/v1.Widget".toList
        (widgetCatalog.at "pkg/api/v1.Widget".toList) = Res.ok doc ∧
      doc.Title = "api_v1_Widget".toList ∧ doc.Type_ = "object".toList ∧
      doc.Description = "A widget.".toList ∧
      (∃ p, GoMap.get doc.Properties "kind".toList = some p ∧
        p.Const = "Widget".toList) ∧
      (∃ p, GoMap.get doc.Properties "apiVersion".toList = some p ∧
        p.Const = "api/v1".toList) ∧
      (∃ p sub q, GoMap.get doc.Properties "spec".toList = some p ∧
        p.Type_ = "object".toList ∧ p.Properties = some sub ∧
        GoMap.get sub "name".toList = some q ∧ q.Type_ = "string".toList) := by
  have hname : resourceName "pkg/api/v1.Widget".toList = Res.ok "api_v1_Widget".toList := by
    decide
  have hprops : (widgetCatalog.at "pkg/api/v1.Widget".toList).Schema.Properties =
      widgetProps := rfl
  have hconv : convert (n + 2) widgetCatalog widgetProps "pkg/api/v1.Widget".toList =
      Res.ok widgetOut :=
    convert_mono 2 (n + 2) (by omega) _ _ _ _ rfl
  refine ⟨⟨widgetOut, "api_v1_Widget".toList, "object".toList, "A widget.".toList, []⟩,
    ?_, rfl, rfl, rfl, ⟨_, rfl, rfl⟩, ⟨_, rfl, rfl⟩, ⟨_, _, _, rfl, rfl, rfl, rfl, rfl⟩⟩
  simp only [mainBody, hname, hprops, hconv]
  rfl

/-! ## The field names of the output -/

/-- C7: when `convert` returns, the output binds exactly the field names that
the property map binds, and every output property is titled with the name of
its field; on a property map without fields `convert` returns the empty
map. -/
theorem convert_field_names (cat : Catalog) (props : GoMap Schema) (api : Str)
    (out : GoMap Property) (h : Converts cat props api out) :
    (∀ f, f ∈ GoMap.keys out ↔ f ∈ GoMap.keys props) ∧
    (∀ f p, GoMap.get out f = some p → p.Title = f) ∧
    (props = [] → out = []) ∧ Converts cat [] api [] := by
  obtain ⟨fuel, hc⟩ := h
  cases fuel with
  | zero => simp [convert] at hc
  | succ n =>
    rw [convert] at hc
    have hkeys : ∀ f, f ∈ GoMap.keys out ↔ f ∈ GoMap.keys props := by
      intro f
      have h1 := convertLoop_keys _ props [] out hc f
      have h2 := GoMap.get_eq_none_iff out f
      constructor
      · intro hm
        rcases h1.mp (fun e => (h2.mp e) hm) with h3 | h3
        · exact h3
        · exact absurd rfl h3
      · intro hm
        by_contra hn
        exact (h1.mpr (Or.inl hm)) (h2.mpr hn)
    refine ⟨hkeys, ?_, ?_, ⟨1, rfl⟩⟩
    · exact convertLoop_invariant _ (fun f p => p.Title = f)
        (fun f s p hp => convertField_Title _ cat api f s p hp) props [] out
        (fun f p hf => by simp [GoMap.get] at hf) hc
    · intro e
      subst e
      exact GoMap.eq_nil_of_keys out (fun f hf => by
        have := (hkeys f).mp hf
        simp [GoMap.keys] at this)

/-- The sample document of `pkg/api/v1.Widget` binds `kind`, `apiVersion` and
`spec`, each to a property of that title. -/
theorem convert_field_names_witness :
    (∀ f, f ∈ GoMap.keys widgetOut ↔ f ∈ GoMap.keys widgetProps) ∧
    (∀ f p, GoMap.get widgetOut f = some p → p.Title = f) ∧
    (widgetProps = [] → widgetOut = []) ∧
    Converts widgetCatalog [] "pkg/api/v1.Widget".toList [] :=
  convert_field_names widgetCatalog widgetProps "pkg/api/v1.Widget".toList widgetOut
    ⟨2, rfl⟩

/-! ## References that the catalog does not hold -/

/-- C8: a field without a type tag whose reference is absent from the catalog
does not make the converter fail: the loop body returns for it, `convert`
returns on the map that holds just this field, and whenever `convert` returns
on a map that holds the field, the field is bound to an `object` property
whose `Properties` is the empty map. -/
theorem convert_missing_reference (cat : Catalog) (f : Str) (s : Schema)
    (ht : s.Type_ = []) (habs : GoMap.get cat s.Ref = none) :
    (∀ n api, convertField (convert (n + 1) cat) cat api f s =
      Res.ok (Property.mk f "object".toList [] [] (some []) none)) ∧
    (∀ n api, convert (n + 2) cat [(f, s)] api =
      Res.ok [(f, Property.mk f "object".toList [] [] (some []) none)]) ∧
    (∀ props api out, (GoMap.keys props).Nodup → (f, s) ∈ props →
      Converts cat props api out →
      ∃ p, GoMap.get out f = some p ∧ p.Type_ = "object".toList ∧
        p.Properties = some []) := by
  have hbody : ∀ n api, convertField (convert (n + 1) cat) cat api f s =
      Res.ok (Property.mk f "object".toList [] [] (some []) none) := by
    intro n api
    simp only [convertField, ht, Catalog.at_absent cat s.Ref habs, convert_nil]
  refine ⟨hbody, ?_, ?_⟩
  · intro n api
    rw [convert]
    simp only [convertLoop, hbody]
    rfl
  · intro props api out hwf hf h
    obtain ⟨fuel, hc⟩ := h
    obtain ⟨n, p, _, hp, hg⟩ := convert_get_of_mem fuel cat props api out hwf hc f s hf
    obtain ⟨sub, hsub, e⟩ := convertField_untyped _ cat api f s p ht hp
    rw [Catalog.at_absent cat s.Ref habs] at hsub
    have e2 : sub = [] := Converts_unique cat [] s.Ref sub [] ⟨n, hsub⟩ ⟨1, rfl⟩
    subst e2
    exact ⟨p, hg, by rw [e]; rfl, by rw [e]; rfl⟩

/-- A field `owner` that refers to `pkg/api/v1.Missing`, which the sample
catalog does not hold, converts to an object without properties. -/
theorem convert_missing_reference_witness :
    (∀ n api, convertField (convert (n + 1) widgetCatalog) widgetCatalog api "owner".toList
        (Schema.ofRef "pkg/api/v1.Missing".toList) =
      Res.ok (Property.mk "owner".toList "object".toList [] [] (some []) none)) ∧
    (∀ n api, convert (n + 2) widgetCatalog
        [("owner".toList, Schema.ofRef "pkg/api/v1.Missing".toList)] api =
      Res.ok [("owner".toList,
        Property.mk "owner".toList "object".toList [] [] (some []) none)]) ∧
    (∀ props api out, (GoMap.keys props).Nodup →
      ("owner".toList, Schema.ofRef "pkg/api/v1.Missing".toList) ∈ props →
      Converts widgetCatalog props api out →
      ∃ p, GoMap.get out "owner".toList = some p ∧ p.Type_ = "object".toList ∧
        p.Properties = some []) :=
  convert_missing_reference widgetCatalog "owner".toList
    (Schema.ofRef "pkg/api/v1.Missing".toList) rfl rfl

/-! ## When the converter returns, and when it fails -/

/-- The references of the sample catalog, ranked so that `pkg/api/v1.Widget`
is above what it refers to. -/
theorem widgetCatalog_acyclic : Acyclic widgetCatalog := by
  refine Acyclic_of_rank widgetCatalog
    (fun r => if r = "pkg/api/v1.Widget".toList then 1 else 0) ?_
  intro r r2 ⟨d, f, s, hd, hm, hr⟩
  by_cases h1 : "pkg/api/v1.Widget".toList = r
  · subst h1
    simp only [widgetCatalog, GoMap.get, if_true, Option.some.injEq] at hd
    subst hd
    have hm2 : (f, s) ∈ widgetProps := hm
    simp only [widgetProps, List.mem_cons, Prod.mk.injEq, List.mem_singleton,
      List.not_mem_nil, or_false] at hm2
    rcases hm2 with ⟨_, e⟩ | ⟨_, e⟩ | ⟨_, e⟩
    · subst e; cases hr
    · subst e; cases hr
    · subst e
      simp only [fieldRef, Schema.ofRef, Schema.Type_, Schema.Ref, Option.some.injEq] at hr
      subst hr
      decide
  · by_cases h2 : "pkg/api/v1.WidgetSpec".toList = r
    · subst h2
      simp only [widgetCatalog, GoMap.get, if_neg h1, if_true, Option.some.injEq] at hd
      subst hd
      have hm2 : (f, s) ∈ widgetSpecProps := hm
      simp only [widgetSpecProps, List.mem_singleton, Prod.mk.injEq] at hm2
      obtain ⟨_, e⟩ := hm2
      subst e
      cases hr
    · simp only [widgetCatalog, GoMap.get, if_neg h1, if_neg h2] at hd
      cases hd

/-- The definitions of the sample catalog are safe in their own context. -/
theorem widgetCatalog_safe (r : Str) (d : OpenAPIDefinition)
    (hd : GoMap.get widgetCatalog r = some d) :
    propsSafe r d.Schema.Properties = true := by
  by_cases h1 : "pkg/api/v1.Widget".toList = r
  · subst h1
    simp only [widgetCatalog, GoMap.get, if_true, Option.some.injEq] at hd
    subst hd
    rfl
  · by_cases h2 : "pkg/api/v1.WidgetSpec".toList = r
    · subst h2
      simp only [widgetCatalog, GoMap.get, if_neg h1, if_true, Option.some.injEq] at hd
      subst hd
      rfl
    · simp only [widgetCatalog, GoMap.get, if_neg h1, if_neg h2] at hd
      cases hd

/-- C10, amended: for every catalog without reference cycles, every property
map and every context reference, `convert` returns an output property map
(with every large enough depth budget) provided that every array field that
the conversion meets has its item schema and that `apiVersionAndKind`
returns on every context in which the conversion meets a primitive field
named `kind` or `apiVersion`; references that the catalog does not hold and
absent enumerations do not make it fail. -/
theorem convert_returns (cat : Catalog) (props : GoMap Schema) (api : Str)
    (hac : Acyclic cat) (hs : propsSafe api props = true)
    (hreach : ∀ r d, Reached cat props r → GoMap.get cat r = some d →
      propsSafe r d.Schema.Properties = true) :
    ∃ out n, ∀ m, n ≤ m → convert m cat props api = Res.ok out := by
  have h : ∃ n out, convert n cat props api = Res.ok out := by
    refine convert_returns_of_fields cat props api hs ?_
    intro f s r hm hr
    exact convert_returns_on_definition cat hac r
      (fun r1 d hp hd => hreach r1 d ⟨f, s, r, hm, hr, hp⟩ hd)
  obtain ⟨n, out, ho⟩ := h
  exact ⟨out, n, fun m hnm => convert_mono n m hnm cat props api out ho⟩

/-- The sample catalog has no cycle and its definitions are safe: `convert`
returns on the properties of `pkg/api/v1.Widget`. -/
theorem convert_returns_witness :
    ∃ out n, ∀ m, n ≤ m →
      convert m widgetCatalog widgetProps "pkg/api/v1.Widget".toList = Res.ok out :=
  convert_returns widgetCatalog widgetProps "pkg/api/v1.Widget".toList
    widgetCatalog_acyclic rfl (fun r d _ hd => widgetCatalog_safe r d hd)

/-- C10 fails as stated: in the empty catalog, which has no cycle, an `array`
field without an item schema makes `convert` fail with a nil dereference,
whatever the depth budget. -/
theorem convert_fails_on_array_without_items :
    Acyclic [] ∧
    convert 1 [] [("ports".toList, Schema.ofType "array".toList)]
      "pkg/api/v1.Widget".toList = Res.panic Panic.nilDereference ∧
    ¬ ∃ out, Converts [] [("ports".toList, Schema.ofType "array".toList)]
      "pkg/api/v1.Widget".toList out := by
  refine ⟨?_, rfl, ?_⟩
  · refine Acyclic_of_rank [] (fun _ => 0) ?_
    intro r r2 ⟨d, f, s, hd, _, _⟩
    cases hd
  · intro ⟨out, fuel, h⟩
    cases fuel with
    | zero => cases h
    | succ n => cases h

/-! ## More about the resource namer -/

theorem mem_of_mem_Split (s : Str) (sep : Char) (piece : Str) (c : Char)
    (hp : piece ∈ strings.Split s sep) (hc : c ∈ piece) : c ∈ s ∧ c ≠ sep := by
  induction s generalizing piece with
  | nil =>
    simp only [strings.Split, List.mem_singleton] at hp
    subst hp
    cases hc
  | cons c0 cs ih =>
    by_cases h0 : c0 = sep
    · rw [strings.Split, if_pos h0] at hp
      rcases List.mem_cons.mp hp with e | e
      · subst e
        cases hc
      · obtain ⟨h1, h2⟩ := ih piece e hc
        exact ⟨List.mem_cons_of_mem _ h1, h2⟩
    · rw [strings.Split, if_neg h0] at hp
      cases hs : strings.Split cs sep with
      | nil => exact absurd hs (Split_ne_nil cs sep)
      | cons first others =>
        rw [hs] at hp ih
        rcases List.mem_cons.mp hp with e | e
        · subst e
          rcases List.mem_cons.mp hc with e2 | e2
          · subst e2
            exact ⟨List.mem_cons_self _ _, h0⟩
          · obtain ⟨h1, h2⟩ := ih first (List.mem_cons_self _ _) e2
            exact ⟨List.mem_cons_of_mem _ h1, h2⟩
        · obtain ⟨h1, h2⟩ := ih piece (List.mem_cons_of_mem _ e) hc
          exact ⟨List.mem_cons_of_mem _ h1, h2⟩

theorem not_mem_ReplaceAll (s : Str) (old new : Char) (h : old ≠ new) :
    old ∉ strings.ReplaceAll s old new := by
  intro hm
  simp only [strings.ReplaceAll, List.mem_map] at hm
  obtain ⟨c, _, hc⟩ := hm
  by_cases e : c = old
  · rw [if_pos e] at hc
    exact h hc.symm
  · rw [if_neg e] at hc
    exact e hc

theorem index_ok_or_panic {α : Type} (xs : List α) (i : Int) :
    (∃ x, index xs i = Res.ok x) ∨ index xs i = Res.panic Panic.indexOutOfRange := by
  unfold index
  by_cases hi : i < 0
  · right
    rw [if_pos hi]
  · rw [if_neg hi]
    cases xs.get? i.toNat with
    | none => right; rfl
    | some x => left; exact ⟨x, rfl⟩

/-- A reference without a path separator makes `apiVersionAndKind` fail: the
index `len(strs) - 2` is negative. -/
theorem apiVersionAndKind_of_no_sep (api : Str) (h : '/' ∉ api) :
    apiVersionAndKind api = Res.panic Panic.indexOutOfRange := by
  have hlen : ¬ len [api] < 1 := by simp [len]
  have h1 : index [api] (len [api] - 1) = Res.ok api := by simp [index, len]
  have h2 : index [api] (len [api] - 2) = Res.panic Panic.indexOutOfRange := by
    simp [index, len]
  simp only [apiVersionAndKind, Split_of_not_mem api '/' h, if_neg hlen, h1, h2]
  rcases index_ok_or_panic (strings.Split api '.') 1 with ⟨kind, hk⟩ | hk
  · rw [hk]
  · rw [hk]

/-- What a returning call of `apiVersionAndKind` read: the last two segments
of the reference and the first two pieces of the last one. -/
theorem apiVersionAndKind_ok_inv (api av k : Str)
    (h : apiVersionAndKind api = Res.ok (av, k)) :
    ∃ pre g last v rest, strings.Split api '/' = pre ++ [g, last] ∧
      strings.Split last '.' = v :: k :: rest ∧ av = g ++ '/' :: v := by
  by_cases hsep : '/' ∈ api
  · obtain ⟨pre, g, last, h1⟩ := exists_two_last _ (Split_length_of_mem api '/' hsep)
    by_cases hdot : '.' ∈ last
    · obtain ⟨v, k2, rest, h2⟩ := Split_two_of_mem last '.' hdot
      have h3 := apiVersionAndKind_of_Split api pre g last v k2 rest h1 h2
      rw [h3] at h
      simp only [Res.ok.injEq, Prod.mk.injEq] at h
      obtain ⟨e1, e2⟩ := h
      subst e2
      exact ⟨pre, g, last, v, rest, h1, h2, e1.symm⟩
    · rw [apiVersionAndKind_of_no_dot api pre g last h1 hdot] at h
      cases h
  · rw [apiVersionAndKind_of_no_sep api hsep] at h
    cases h

/-- The result of `apiVersionAndKind` is a function of the last two segments
of the reference. -/
theorem apiVersionAndKind_of_last_two (a b : Str) (pre1 pre2 : List Str) (g last : Str)
    (ha : strings.Split a '/' = pre1 ++ [g, last])
    (hb : strings.Split b '/' = pre2 ++ [g, last]) :
    apiVersionAndKind a = apiVersionAndKind b := by
  by_cases hdot : '.' ∈ last
  · obtain ⟨v, k, rest, h2⟩ := Split_two_of_mem last '.' hdot
    rw [apiVersionAndKind_of_Split a pre1 g last v k rest ha h2,
      apiVersionAndKind_of_Split b pre2 g last v k rest hb h2]
  · rw [apiVersionAndKind_of_no_dot a pre1 g last ha hdot,
      apiVersionAndKind_of_no_dot b pre2 g last hb hdot]

/-- C18: the identifier that `resourceName` returns contains no `/`. -/
theorem resourceName_has_no_separator (api id : Str) (h : resourceName api = Res.ok id) :
    '/' ∉ id := by
  cases ha : apiVersionAndKind api with
  | ok r =>
    obtain ⟨av, k⟩ := r
    rw [resourceName_of_apiVersionAndKind api av k ha] at h
    simp only [Res.ok.injEq] at h
    subst h
    obtain ⟨pre, g, last, v, rest, h1, h2, _⟩ := apiVersionAndKind_ok_inv api av k ha
    have hlast : last ∈ strings.Split api '/' := by
      rw [h1]
      simp
    have hk : k ∈ strings.Split last '.' := by
      rw [h2]
      simp
    intro hm
    rcases List.mem_append.mp hm with e | e
    · exact not_mem_ReplaceAll av '/' '_' (by decide) e
    · rcases List.mem_cons.mp e with e2 | e2
      · exact absurd e2 (by decide)
      · have h3 := (mem_of_mem_Split last '.' k '/' hk e2).1
        exact (mem_of_mem_Split api '/' last '/' hlast h3).2 rfl
  | panic e =>
    simp only [resourceName, ha] at h
    cases h
  | exhausted =>
    simp only [resourceName, ha] at h
    cases h

/-- The identifier `api_v1_Widget` of `pkg/api/v1.Widget` contains no `/`. -/
theorem resourceName_has_no_separator_witness : '/' ∉ "api_v1_Widget".toList :=
  resourceName_has_no_separator "pkg/api/v1.Widget".toList "api_v1_Widget".toList
    (by decide)

/-- C19: two references with at least two segments that agree on their last
two segments get equal results from `apiVersionAndKind` and from
`resourceName`. -/
theorem namer_depends_on_last_two_segments (a b : Str) (pre1 pre2 : List Str)
    (g last : Str) (ha : strings.Split a '/' = pre1 ++ [g, last])
    (hb : strings.Split b '/' = pre2 ++ [g, last]) :
    apiVersionAndKind a = apiVersionAndKind b ∧ resourceName a = resourceName b := by
  have h := apiVersionAndKind_of_last_two a b pre1 pre2 g last ha hb
  refine ⟨h, ?_⟩
  simp only [resourceName, h]

/-- The distinct references `x/core/v1.Pod` and `y/z/core/v1.Pod` get the same
identity and the same identifier `core_v1_Pod`. -/
theorem namer_depends_on_last_two_segments_witness :
    "x/core/v1.Pod".toList ≠ "y/z/core/v1.Pod".toList ∧
    resourceName "x/core/v1.Pod".toList = Res.ok "core_v1_Pod".toList ∧
    apiVersionAndKind "x/core/v1.Pod".toList = apiVersionAndKind "y/z/core/v1.Pod".toList ∧
    resourceName "x/core/v1.Pod".toList = resourceName "y/z/core/v1.Pod".toList :=
  ⟨by decide, by decide,
    namer_depends_on_last_two_segments "x/core/v1.Pod".toList "y/z/core/v1.Pod".toList
      ["x".toList] ["y".toList, "z".toList] "core".toList "v1.Pod".toList
      (by decide) (by decide)⟩

/-! ## Identity constants, branch by branch -/

/-- The two branches of the loop body that recurse: the property they produce
wraps what the recursive call returns on the definition of the reference, and
has neither a constant nor enumerated values. -/
theorem convertField_of_fieldRef (recur : GoMap Schema → Str → Res (GoMap Property))
    (cat : Catalog) (api f : Str) (s : Schema) (r : Str) (p : Property)
    (hr : fieldRef s = some r) (h : convertField recur cat api f s = Res.ok p) :
    ∃ sub, recur (cat.at r).Schema.Properties r = Res.ok sub ∧
      ((s.Type_ = [] ∧ p = Property.mk f "object".toList [] [] (some sub) none) ∨
       (s.Type_ ≠ [] ∧
        p = Property.mk f "array".toList [] [] none (some [("properties".toList, sub)]))) := by
  cases ht : s.Type_ with
  | nil =>
    simp only [fieldRef, ht, Option.some.injEq] at hr
    subst hr
    obtain ⟨sub, hsub, e⟩ := convertField_untyped recur cat api f s p ht h
    exact ⟨sub, hsub, Or.inl ⟨rfl, e⟩⟩
  | cons t ts =>
    by_cases ha : t = "array".toList
    · subst ha
      cases hi : s.Items with
      | none => simp [fieldRef, ht, hi] at hr
      | some i =>
        cases i with
        | none => simp [fieldRef, ht, hi] at hr
        | some item =>
          simp only [fieldRef, ht, if_true, hi, Option.some.injEq] at hr
          subst hr
          obtain ⟨sub, hsub, e⟩ := convertField_array recur cat api f s item ts p ht hi h
          exact ⟨sub, hsub, Or.inr ⟨by simp, e⟩⟩
    · simp only [fieldRef, ht, if_neg ha] at hr
      cases hr

/-- C11, amended: the identity constants are set in the primitive branch
only.  When `convert` returns, a primitive field named `kind` has the
constant kind derived from the context reference and a primitive field named
`apiVersion` the derived group/version, while a field without a type tag, or
an `array` field with its item schema, has an empty constant whatever its
name. -/
theorem convert_identity_by_branch (cat : Catalog) (props : GoMap Schema) (api : Str)
    (out : GoMap Property) (hwf : (GoMap.keys props).Nodup)
    (h : Converts cat props api out) (f : Str) (s : Schema) (hf : (f, s) ∈ props) :
    (∀ t ts, s.Type_ = t :: ts → t ≠ "array".toList → f = "kind".toList →
      ∃ av k p, apiVersionAndKind api = Res.ok (av, k) ∧ GoMap.get out f = some p ∧
        p.Const = k) ∧
    (∀ t ts, s.Type_ = t :: ts → t ≠ "array".toList → f = "apiVersion".toList →
      ∃ av k p, apiVersionAndKind api = Res.ok (av, k) ∧ GoMap.get out f = some p ∧
        p.Const = av) ∧
    (∀ r, fieldRef s = some r → ∃ p, GoMap.get out f = some p ∧ p.Const = []) := by
  obtain ⟨fuel, hc⟩ := h
  obtain ⟨n, p, _, hp, hg⟩ := convert_get_of_mem fuel cat props api out hwf hc f s hf
  refine ⟨?_, ?_, ?_⟩
  · intro t ts ht hna hk
    rcases convertField_primitive _ cat api f s t ts p ht hna hp with
      ⟨_, av, k, ha, e⟩ | ⟨hv, _⟩ | ⟨hk2, _⟩
    · exact ⟨av, k, p, ha, hg, by rw [e]; rfl⟩
    · rw [hk] at hv
      exact absurd hv (by decide)
    · exact absurd hk hk2
  · intro t ts ht hna hv
    rcases convertField_primitive _ cat api f s t ts p ht hna hp with
      ⟨hk, _⟩ | ⟨_, av, k, ha, e⟩ | ⟨_, hv2, _⟩
    · rw [hv] at hk
      exact absurd hk (by decide)
    · exact ⟨av, k, p, ha, hg, by rw [e]; rfl⟩
    · exact absurd hv hv2
  · intro r hr
    obtain ⟨sub, _, ⟨_, e⟩ | ⟨_, e⟩⟩ := convertField_of_fieldRef _ cat api f s r p hr hp
    · exact ⟨p, hg, by rw [e]; rfl⟩
    · exact ⟨p, hg, by rw [e]; rfl⟩

/-- In the context `pkg/api/v1.Widget`, the untyped field `kind` of
`structuredIdentityProps` converts to a property with an empty constant. -/
theorem convert_identity_by_branch_witness :
    ∃ p, GoMap.get structuredIdentityOut "kind".toList = some p ∧ p.Const = [] :=
  (convert_identity_by_branch widgetCatalog structuredIdentityProps
    "pkg/api/v1.Widget".toList structuredIdentityOut (by decide) ⟨2, rfl⟩ "kind".toList
    (Schema.ofRef "pkg/api/v1.WidgetSpec".toList)
    (by simp [structuredIdentityProps])).2.2 "pkg/api/v1.WidgetSpec".toList rfl

/-- C11 fails as stated: in the context `pkg/api/v1.Widget`, whose derived
kind is `Widget` and group/version `api/v1`, an untyped field named `kind`
and an array field named `apiVersion` both come out with an empty constant. -/
theorem identity_not_injected_outside_primitive_branch :
    apiVersionAndKind "pkg/api/v1.Widget".toList =
      Res.ok ("api/v1".toList, "Widget".toList) ∧
    convert 2 widgetCatalog structuredIdentityProps "pkg/api/v1.Widget".toList =
      Res.ok structuredIdentityOut ∧
    (∃ p, GoMap.get structuredIdentityOut "kind".toList = some p ∧
      p.Const = [] ∧ p.Const ≠ "Widget".toList) ∧
    (∃ p, GoMap.get structuredIdentityOut "apiVersion".toList = some p ∧
      p.Const = [] ∧ p.Const ≠ "api/v1".toList) :=
  ⟨by decide, rfl, ⟨_, rfl, rfl, by decide⟩, ⟨_, rfl, rfl, by decide⟩⟩

/-- C12, amended: when `convert` returns, a primitive field named `kind` (or
`apiVersion`) carries the identity constant derived from the context
reference and keeps its enumerated values unchanged. -/
theorem convert_identity_keeps_enum (cat : Catalog) (props : GoMap Schema) (api : Str)
    (out : GoMap Property) (hwf : (GoMap.keys props).Nodup)
    (h : Converts cat props api out) (f : Str) (s : Schema) (t : Str) (ts : List Str)
    (hf : (f, s) ∈ props) (ht : s.Type_ = t :: ts) (hna : t ≠ "array".toList)
    (hid : f = "kind".toList ∨ f = "apiVersion".toList) :
    ∃ av k p, apiVersionAndKind api = Res.ok (av, k) ∧ GoMap.get out f = some p ∧
      p.Const = (if f = "kind".toList then k else av) ∧ p.Enum = s.Enum := by
  obtain ⟨fuel, hc⟩ := h
  obtain ⟨n, p, _, hp, hg⟩ := convert_get_of_mem fuel cat props api out hwf hc f s hf
  rcases convertField_primitive _ cat api f s t ts p ht hna hp with
    ⟨hk, av, k, ha, e⟩ | ⟨hv, av, k, ha, e⟩ | ⟨hk, hv, _⟩
  · exact ⟨av, k, p, ha, hg, by rw [e, if_pos hk]; rfl, by rw [e]; rfl⟩
  · have hk : ¬ f = "kind".toList := by
      rw [hv]
      decide
    exact ⟨av, k, p, ha, hg, by rw [e, if_neg hk]; rfl, by rw [e]; rfl⟩
  · rcases hid with e | e
    · exact absurd e hk
    · exact absurd e hv

/-- The field `kind` of `enumeratedKindProps` comes out with the constant
`Widget` and its two enumerated values. -/
theorem convert_identity_keeps_enum_witness :
    ∃ av k p, apiVersionAndKind "pkg/api/v1.Widget".toList = Res.ok (av, k) ∧
      GoMap.get enumeratedKindOut "kind".toList = some p ∧
      p.Const = (if "kind".toList = "kind".toList then k else av) ∧
      p.Enum = (Schema.ofEnum "string".toList kindValues).Enum :=
  convert_identity_keeps_enum widgetCatalog enumeratedKindProps "pkg/api/v1.Widget".toList
    enumeratedKindOut (by decide) ⟨1, rfl⟩ "kind".toList
    (Schema.ofEnum "string".toList kindValues) "string".toList []
    (by simp [enumeratedKindProps]) rfl (by decide) (Or.inl rfl)

/-- C12 fails as stated: the primitive field `kind` with the enumerated values
`Widget` and `Gadget` comes out with the constant `Widget` and with both
enumerated values still there. -/
theorem identity_enum_not_dropped :
    convert 1 widgetCatalog enumeratedKindProps "pkg/api/v1.Widget".toList =
      Res.ok enumeratedKindOut ∧
    ∃ p, GoMap.get enumeratedKindOut "kind".toList = some p ∧
      p.Const = "Widget".toList ∧ p.Enum = kindValues ∧ p.Enum ≠ [] :=
  ⟨rfl, _, rfl, rfl, rfl, by decide⟩

/-! ## Nested definitions -/

/-- C15: a nested definition gets its own identity.  When `convert` returns
and a field recurses into the reference `r` (an untyped field, or an `array`
field through its item schema), the nested map of the output property is what
`convert` returns on the definition of `r` with `r` as the context: a
primitive field `kind` of that definition has the constant kind derived from
`r`, a primitive field `apiVersion` the group/version derived from `r`, and
the nested map is the same under every context reference of the outer
call. -/
theorem nested_definition_identity (cat : Catalog) (props : GoMap Schema) (api : Str)
    (out : GoMap Property) (hwf : (GoMap.keys props).Nodup)
    (h : Converts cat props api out) (f : Str) (s : Schema) (r : Str)
    (hf : (f, s) ∈ props) (hr : fieldRef s = some r)
    (hwf2 : (GoMap.keys (cat.at r).Schema.Properties).Nodup) :
    ∃ p sub, GoMap.get out f = some p ∧
      (p.Properties = some sub ∨ p.Items = some [("properties".toList, sub)]) ∧
      (∀ s2 t ts, ("kind".toList, s2) ∈ (cat.at r).Schema.Properties →
        s2.Type_ = t :: ts → t ≠ "array".toList →
        ∃ av k q, apiVersionAndKind r = Res.ok (av, k) ∧
          GoMap.get sub "kind".toList = some q ∧ q.Const = k) ∧
      (∀ s2 t ts, ("apiVersion".toList, s2) ∈ (cat.at r).Schema.Properties →
        s2.Type_ = t :: ts → t ≠ "array".toList →
        ∃ av k q, apiVersionAndKind r = Res.ok (av, k) ∧
          GoMap.get sub "apiVersion".toList = some q ∧ q.Const = av) ∧
      (∀ api2 out2, Converts cat props api2 out2 →
        ∃ p2, GoMap.get out2 f = some p2 ∧ p2.Properties = p.Properties ∧
          p2.Items = p.Items) := by
  obtain ⟨fuel, hc⟩ := h
  obtain ⟨n, p, hn, hp, hg⟩ := convert_get_of_mem fuel cat props api out hwf hc f s hf
  obtain ⟨sub, hsub, hshape⟩ := convertField_of_fieldRef _ cat api f s r p hr hp
  refine ⟨p, sub, hg, ?_, ?_, ?_, ?_⟩
  · rcases hshape with ⟨_, e⟩ | ⟨_, e⟩
    · exact Or.inl (by rw [e]; rfl)
    · exact Or.inr (by rw [e]; rfl)
  · intro s2 t ts hf2 ht hna
    obtain ⟨m, q, _, hq, hgq⟩ :=
      convert_get_of_mem n cat _ r sub hwf2 hsub "kind".toList s2 hf2
    rcases convertField_primitive _ cat r _ s2 t ts q ht hna hq with
      ⟨_, av, k, ha, e⟩ | ⟨hv, _⟩ | ⟨hk, _⟩
    · exact ⟨av, k, q, ha, hgq, by rw [e]; rfl⟩
    · exact absurd hv (by decide)
    · exact absurd rfl hk
  · intro s2 t ts hf2 ht hna
    obtain ⟨m, q, _, hq, hgq⟩ :=
      convert_get_of_mem n cat _ r sub hwf2 hsub "apiVersion".toList s2 hf2
    rcases convertField_primitive _ cat r _ s2 t ts q ht hna hq with
      ⟨hk, _⟩ | ⟨_, av, k, ha, e⟩ | ⟨_, hv, _⟩
    · exact absurd hk (by decide)
    · exact ⟨av, k, q, ha, hgq, by rw [e]; rfl⟩
    · exact absurd rfl hv
  · intro api2 out2 ⟨fuel2, hc2⟩
    obtain ⟨n2, p2, _, hp2, hg2⟩ :=
      convert_get_of_mem fuel2 cat props api2 out2 hwf hc2 f s hf
    obtain ⟨sub2, hsub2, hshape2⟩ := convertField_of_fieldRef _ cat api2 f s r p2 hr hp2
    have e : sub2 = sub := Converts_unique cat _ r sub2 sub ⟨n2, hsub2⟩ ⟨n, hsub⟩
    subst e
    refine ⟨p2, hg2, ?_⟩
    rcases hshape with ⟨ht, e1⟩ | ⟨ht, e1⟩
    · rcases hshape2 with ⟨_, e2⟩ | ⟨ht2, _⟩
      · rw [e1, e2]
        exact ⟨rfl, rfl⟩
      · exact absurd ht ht2
    · rcases hshape2 with ⟨ht2, _⟩ | ⟨_, e2⟩
      · exact absurd ht2 ht
      · rw [e1, e2]
        exact ⟨rfl, rfl⟩

/-- In the output for `pkg/api/v1.Owner`, the field `kind` nested under
`owner` has the constant derived from `pkg/meta/v1.ObjectRef`, the reference
of the nested definition. -/
theorem nested_definition_identity_witness :
    ∃ p sub, GoMap.get ownerOut "owner".toList = some p ∧
      (p.Properties = some sub ∨ p.Items = some [("properties".toList, sub)]) ∧
      ∃ av k q, apiVersionAndKind "pkg/meta/v1.ObjectRef".toList = Res.ok (av, k) ∧
        GoMap.get sub "kind".toList = some q ∧ q.Const = k := by
  obtain ⟨p, sub, h1, h2, h3, _⟩ :=
    nested_definition_identity ownerCatalog ownerProps "pkg/api/v1.Owner".toList ownerOut
      (by decide) ⟨2, rfl⟩ "owner".toList (Schema.ofRef "pkg/meta/v1.ObjectRef".toList)
      "pkg/meta/v1.ObjectRef".toList (by simp [ownerProps]) rfl (by decide)
  exact ⟨p, sub, h1, h2,
    h3 (Schema.ofType "string".toList) "string".toList []
      (List.mem_cons_self _ _) rfl (by decide)⟩

/-! ## Arrays of primitives -/

/-- C20: in a catalog without an entry for the empty reference, an `array`
field whose item schema is present and carries no reference converts to an
`array` property whose `Items` bind `properties` to the empty map, and to
nothing else: the loop body returns exactly this property, whatever the type
tags and enumerated values of the item schema, and `convert` binds the field
to it whenever it returns. -/
theorem convert_array_of_primitives (cat : Catalog) (hcat : GoMap.get cat [] = none)
    (f : Str) (s item : Schema) (ts : List Str) (ht : s.Type_ = "array".toList :: ts)
    (hi : s.Items = some (some item)) (hr : item.Ref = []) :
    (∀ n api, convertField (convert (n + 1) cat) cat api f s =
      Res.ok (Property.mk f "array".toList [] [] none (some [("properties".toList, [])]))) ∧
    (∀ props api out, (GoMap.keys props).Nodup → (f, s) ∈ props →
      Converts cat props api out →
      GoMap.get out f =
        some (Property.mk f "array".toList [] [] none (some [("properties".toList, [])]))) := by
  have hbody : ∀ n api, convertField (convert (n + 1) cat) cat api f s =
      Res.ok (Property.mk f "array".toList [] [] none
        (some [("properties".toList, [])])) := by
    intro n api
    simp only [convertField, ht, if_true, hi, hr, Catalog.at_absent cat [] hcat, convert_nil]
  refine ⟨hbody, ?_⟩
  intro props api out hwf hf ⟨fuel, hc⟩
  obtain ⟨n, p, _, hp, hg⟩ := convert_get_of_mem fuel cat props api out hwf hc f s hf
  obtain ⟨sub, hsub, e⟩ := convertField_array _ cat api f s item ts p ht hi hp
  rw [hr, Catalog.at_absent cat [] hcat] at hsub
  have e2 : sub = [] := Converts_unique cat [] [] sub [] ⟨n, hsub⟩ ⟨1, rfl⟩
  subst e2
  rw [hg, e]

/-- The array field `tags`, whose items are enumerated strings without a
reference, converts in the sample catalog to an array whose `Items` bind
`properties` to the empty map. -/
theorem convert_array_of_primitives_witness :
    (∀ n api, convertField (convert (n + 1) widgetCatalog) widgetCatalog api "tags".toList
        tagsField =
      Res.ok (Property.mk "tags".toList "array".toList [] [] none
        (some [("properties".toList, [])]))) ∧
    (∀ props api out, (GoMap.keys props).Nodup → ("tags".toList, tagsField) ∈ props →
      Converts widgetCatalog props api out →
      GoMap.get out "tags".toList =
        some (Property.mk "tags".toList "array".toList [] [] none
          (some [("properties".toList, [])]))) :=
  convert_array_of_primitives widgetCatalog rfl "tags".toList tagsField
    (Schema.ofEnum "string".toList [Iface.str "red".toList]) [] rfl rfl rfl

/-! ## The shape of every output property -/

theorem GoMap.mem_set {α : Type} (m : GoMap α) (k j : Str) (v w : α)
    (h : (j, w) ∈ GoMap.set m k v) : (j, w) = (k, v) ∨ (j, w) ∈ m := by
  induction m with
  | nil =>
    simp only [GoMap.set, List.mem_singleton] at h
    exact Or.inl h
  | cons b rest ih =>
    obtain ⟨k', v'⟩ := b
    by_cases hk : k' = k
    · rw [GoMap.set, if_pos hk] at h
      rcases List.mem_cons.mp h with e | e
      · exact Or.inl e
      · exact Or.inr (List.mem_cons_of_mem _ e)
    · rw [GoMap.set, if_neg hk] at h
      rcases List.mem_cons.mp h with e | e
      · exact Or.inr (by rw [e]; exact List.mem_cons_self _ _)
      · rcases ih e with e2 | e2
        · exact Or.inl e2
        · exact Or.inr (List.mem_cons_of_mem _ e2)

/-- Every binding of the map the loop returns was in the map it started from
or is what the body produced for a field it visited. -/
theorem convertLoop_mem (body : Str → Schema → Res Property) (props : GoMap Schema)
    (acc out : GoMap Property) (h : convertLoop body props acc = Res.ok out)
    (k : Str) (p : Property) (hm : (k, p) ∈ out) :
    (k, p) ∈ acc ∨ ∃ s, (k, s) ∈ props ∧ body k s = Res.ok p := by
  induction props generalizing acc with
  | nil =>
    simp only [convertLoop, Res.ok.injEq] at h
    subst h
    exact Or.inl hm
  | cons b rest ih =>
    obtain ⟨field, prop⟩ := b
    simp only [convertLoop] at h
    cases hb : body field prop with
    | ok property =>
      rw [hb] at h
      rcases ih _ h with e | ⟨s, hs, hbs⟩
      · rcases GoMap.mem_set acc field k property p e with e2 | e2
        · simp only [Prod.mk.injEq] at e2
          obtain ⟨e3, e4⟩ := e2
          subst e3; subst e4
          exact Or.inr ⟨prop, List.mem_cons_self _ _, hb⟩
        · exact Or.inl e2
      · exact Or.inr ⟨s, List.mem_cons_of_mem _ hs, hbs⟩
    | panic e => rw [hb] at h; cases h
    | exhausted => rw [hb] at h; cases h

/-- Every property of the map that `convert` returns is what the loop body
produced for a field of the property map. -/
theorem convert_mem (n : Nat) (cat : Catalog) (props : GoMap Schema) (api : Str)
    (out : GoMap Property) (h : convert (n + 1) cat props api = Res.ok out)
    (k : Str) (p : Property) (hm : (k, p) ∈ out) :
    ∃ s, (k, s) ∈ props ∧ convertField (convert n cat) cat api k s = Res.ok p := by
  rw [convert] at h
  rcases convertLoop_mem _ props [] out h k p hm with e | e
  · cases e
  · exact e

/-- The property that the loop body produces is well shaped, and its nested
maps are results of the recursive call. -/
theorem convertField_shape (recur : GoMap Schema → Str → Res (GoMap Property))
    (cat : Catalog) (api f : Str) (s : Schema) (p : Property)
    (h : convertField recur cat api f s = Res.ok p) :
    WellShaped p ∧
    (∀ sub, p.Properties = some sub → ∃ ps r, recur ps r = Res.ok sub) ∧
    (∀ items k2 sub, p.Items = some items → (k2, sub) ∈ items →
      ∃ ps r, recur ps r = Res.ok sub) := by
  cases ht : s.Type_ with
  | nil =>
    obtain ⟨sub, hsub, e⟩ := convertField_untyped recur cat api f s p ht h
    subst e
    refine ⟨⟨fun _ => ⟨rfl, rfl, rfl, rfl⟩, fun hn => absurd rfl hn,
      fun hn => absurd rfl hn⟩, ?_, ?_⟩
    · intro sub2 h2
      simp only [Property.Properties, Option.some.injEq] at h2
      subst h2
      exact ⟨_, _, hsub⟩
    · intro items k2 sub2 h2
      cases h2
  | cons t ts =>
    by_cases ha : t = "array".toList
    · subst ha
      cases hi : s.Items with
      | none => simp [convertField, ht, hi] at h
      | some i =>
        cases i with
        | none => simp [convertField, ht, hi] at h
        | some item =>
          obtain ⟨sub, hsub, e⟩ := convertField_array recur cat api f s item ts p ht hi h
          subst e
          refine ⟨⟨fun hn => absurd rfl hn, fun _ => ⟨rfl, ⟨sub, rfl⟩, rfl, rfl, rfl⟩,
            fun hn => absurd rfl hn⟩, ?_, ?_⟩
          · intro sub2 h2
            cases h2
          · intro items k2 sub2 h2 hm
            simp only [Property.Items, Option.some.injEq] at h2
            subst h2
            simp only [List.mem_singleton, Prod.mk.injEq] at hm
            obtain ⟨_, e2⟩ := hm
            subst e2
            exact ⟨_, _, hsub⟩
    · have hnil : p.Properties = none ∧ p.Items = none ∧
          (p.Const ≠ [] → p.Title = "kind".toList ∨ p.Title = "apiVersion".toList) := by
        rcases convertField_primitive recur cat api f s t ts p ht ha h with
          ⟨hk, _, _, _, e⟩ | ⟨hv, _, _, _, e⟩ | ⟨_, _, e⟩
        · subst e
          exact ⟨rfl, rfl, fun _ => Or.inl hk⟩
        · subst e
          exact ⟨rfl, rfl, fun _ => Or.inr hv⟩
        · subst e
          exact ⟨rfl, rfl, fun hn => absurd rfl hn⟩
      obtain ⟨h1, h2, h3⟩ := hnil
      refine ⟨⟨fun hn => absurd h1 hn, fun hn => absurd h2 hn, h3⟩, ?_, ?_⟩
      · intro sub hs
        rw [h1] at hs
        cases hs
      · intro items k2 sub hs
        rw [h2] at hs
        cases hs

/-- C17: every property that occurs, at any nesting depth, in a map that
`convert` returns is well shaped: `Properties` only on an `object` property
(then without `Items`, enumerated values and constant), `Items` only on an
`array` property (then with the single key `properties` and without
`Properties`, enumerated values and constant), and a non-empty constant only
on a property titled `kind` or `apiVersion`. -/
theorem convert_output_well_shaped (cat : Catalog) (props : GoMap Schema) (api : Str)
    (out : GoMap Property) (h : Converts cat props api out) (q : Property)
    (hq : Occurs q out) : WellShaped q := by
  obtain ⟨fuel, hc⟩ := h
  induction fuel generalizing props api out with
  | zero => cases hc
  | succ n ih =>
    cases hq with
    | here m k hm =>
      obtain ⟨s, _, hb⟩ := convert_mem n cat props api out hc k q hm
      exact (convertField_shape _ cat api k s q hb).1
    | inProperties m k p sub hm hp hsub =>
      obtain ⟨s, _, hb⟩ := convert_mem n cat props api out hc k p hm
      obtain ⟨ps, r, hr⟩ := (convertField_shape _ cat api k s p hb).2.1 sub hp
      exact ih ps r sub hsub hr
    | inItems m k p items k2 sub hm hp hk2 hsub =>
      obtain ⟨s, _, hb⟩ := convert_mem n cat props api out hc k p hm
      obtain ⟨ps, r, hr⟩ := (convertField_shape _ cat api k s p hb).2.2 items k2 sub hp hk2
      exact ih ps r sub hsub hr

/-- The property `name`, nested in the field `spec` of the sample document, is
well shaped. -/
theorem convert_output_well_shaped_witness :
    WellShaped (Property.mk "name".toList "string".toList [] [] none none) :=
  convert_output_well_shaped widgetCatalog widgetProps "pkg/api/v1.Widget".toList
    widgetOut ⟨2, rfl⟩ _
    (Occurs.inProperties widgetOut "spec".toList
      (Property.mk "spec".toList "object".toList [] [] (some widgetSpecOut) none)
      widgetSpecOut (by simp [widgetOut]) rfl
      (Occurs.here widgetSpecOut "name".toList (by simp [widgetSpecOut])))

/-! ## Reference cycles -/

/-- A loop that returns ran its body to a value on every field it visited. -/
theorem convertLoop_ok_mem (body : Str → Schema → Res Property) (props : GoMap Schema)
    (acc out : GoMap Property) (h : convertLoop body props acc = Res.ok out)
    (f : Str) (s : Schema) (hf : (f, s) ∈ props) : ∃ p, body f s = Res.ok p := by
  induction props generalizing acc with
  | nil => cases hf
  | cons b rest ih =>
    obtain ⟨field, prop⟩ := b
    simp only [convertLoop] at h
    cases hb : body field prop with
    | ok property =>
      rw [hb] at h
      rcases List.mem_cons.mp hf with e | e
      · cases e
        exact ⟨property, hb⟩
      · exact ih _ h e
    | panic e => rw [hb] at h; cases h
    | exhausted => rw [hb] at h; cases h

/-- A loop that panics ran its body to that panic on a field it visited. -/
theorem convertLoop_panic_mem (body : Str → Schema → Res Property) (props : GoMap Schema)
    (acc : GoMap Property) (e : Panic) (h : convertLoop body props acc = Res.panic e) :
    ∃ f s, (f, s) ∈ props ∧ body f s = Res.panic e := by
  induction props generalizing acc with
  | nil => cases h
  | cons b rest ih =>
    obtain ⟨field, prop⟩ := b
    simp only [convertLoop] at h
    cases hb : body field prop with
    | ok property =>
      rw [hb] at h
      obtain ⟨f, s, hm, hp⟩ := ih _ h
      exact ⟨f, s, List.mem_cons_of_mem _ hm, hp⟩
    | panic e2 =>
      rw [hb] at h
      cases h
      exact ⟨field, prop, List.mem_cons_self _ _, hb⟩
    | exhausted => rw [hb] at h; cases h

/-- The properties that the catalog holds for a reference it binds. -/
theorem Catalog.at_present (cat : Catalog) (r : Str) (d : OpenAPIDefinition)
    (h : GoMap.get cat r = some d) : cat.at r = d := by
  simp only [Catalog.at, h]

/-- A returning call on the definition of `a` made a returning call, one
level deeper, on every definition that `a` refers to. -/
theorem convert_ok_along_edge (n : Nat) (cat : Catalog) (a b api : Str)
    (out : GoMap Property) (he : RefersTo cat a b)
    (h : convert (n + 1) cat (cat.at a).Schema.Properties api = Res.ok out) :
    ∃ sub, convert n cat (cat.at b).Schema.Properties b = Res.ok sub := by
  obtain ⟨d, f, s, hd, hm, hr⟩ := he
  rw [Catalog.at_present cat a d hd, convert] at h
  obtain ⟨p, hp⟩ := convertLoop_ok_mem _ _ [] out h f s hm
  obtain ⟨sub, hsub, _⟩ := convertField_of_fieldRef _ cat api f s b p hr hp
  exact ⟨sub, hsub⟩

/-- A returning call on the definition of `a` made a returning call with a
smaller budget on every definition reached from `a`. -/
theorem convert_ok_along_path (cat : Catalog) (a b : Str)
    (hp : Relation.TransGen (RefersTo cat) a b) (n : Nat) (api : Str)
    (out : GoMap Property)
    (h : convert n cat (cat.at a).Schema.Properties api = Res.ok out) :
    ∃ m sub, m < n ∧ convert m cat (cat.at b).Schema.Properties b = Res.ok sub := by
  induction hp with
  | single he =>
    cases n with
    | zero => cases h
    | succ k =>
      obtain ⟨sub, hsub⟩ := convert_ok_along_edge k cat a _ api out he h
      exact ⟨k, sub, by omega, hsub⟩
  | tail _ he ih =>
    obtain ⟨m, sub, hm, hsub⟩ := ih
    cases m with
    | zero => cases hsub
    | succ k =>
      obtain ⟨sub2, hsub2⟩ := convert_ok_along_edge k cat _ _ _ sub he hsub
      exact ⟨k, sub2, by omega, hsub2⟩

/-- On a reference that lies on a cycle, no depth budget makes `convert`
return. -/
theorem convert_not_ok_on_cycle (cat : Catalog) (r : Str)
    (hcyc : Relation.TransGen (RefersTo cat) r r) (n : Nat) :
    ∀ api out, convert n cat (cat.at r).Schema.Properties api ≠ Res.ok out := by
  induction n using Nat.strong_induction_on with
  | _ n ih =>
    intro api out h
    obtain ⟨m, sub, hm, hsub⟩ := convert_ok_along_path cat r r hcyc n api out h
    exact ih m hm r sub hsub

/-- The function `apiVersionAndKind` does not recurse: it never uses up a
depth budget. -/
theorem apiVersionAndKind_ne_exhausted (api : Str) :
    apiVersionAndKind api ≠ Res.exhausted := by
  by_cases hsep : '/' ∈ api
  · obtain ⟨pre, g, last, h1⟩ := exists_two_last _ (Split_length_of_mem api '/' hsep)
    by_cases hdot : '.' ∈ last
    · obtain ⟨v, k, rest, h2⟩ := Split_two_of_mem last '.' hdot
      rw [apiVersionAndKind_of_Split api pre g last v k rest h1 h2]
      exact fun e => by cases e
    · rw [apiVersionAndKind_of_no_dot api pre g last h1 hdot]
      exact fun e => by cases e
  · rw [apiVersionAndKind_of_no_sep api hsep]
    exact fun e => by cases e

/-- A safe field panics only when its recursive call does. -/
theorem convertField_panic_inv (recur : GoMap Schema → Str → Res (GoMap Property))
    (cat : Catalog) (api f : Str) (s : Schema) (e : Panic)
    (hs : fieldSafe api f s = true) (h : convertField recur cat api f s = Res.panic e) :
    ∃ r, fieldRef s = some r ∧ recur (cat.at r).Schema.Properties r = Res.panic e := by
  have hret : (∀ r, fieldRef s = some r →
      ∃ sub, recur (cat.at r).Schema.Properties r = Res.ok sub) → False := by
    intro hall
    obtain ⟨p, hp⟩ := convertField_returns recur cat api f s hs hall
    rw [hp] at h
    cases h
  cases hfr : fieldRef s with
  | none =>
    exact absurd (fun r hr => by rw [hfr] at hr; cases hr) hret
  | some r =>
    refine ⟨r, rfl, ?_⟩
    cases ht : s.Type_ with
    | nil =>
      simp only [fieldRef, ht, Option.some.injEq] at hfr
      subst hfr
      simp only [convertField, ht] at h
      cases hr : recur (cat.at s.Ref).Schema.Properties s.Ref with
      | ok sub => rw [hr] at h; cases h
      | panic e2 =>
        rw [hr] at h
        cases h
        rfl
      | exhausted => rw [hr] at h; cases h
    | cons t ts =>
      by_cases ha : t = "array".toList
      · subst ha
        cases hi : s.Items with
        | none => simp [fieldRef, ht, hi] at hfr
        | some i =>
          cases i with
          | none => simp [fieldRef, ht, hi] at hfr
          | some item =>
            simp only [fieldRef, ht, if_true, hi, Option.some.injEq] at hfr
            subst hfr
            simp only [convertField, ht, if_true, hi] at h
            cases hr : recur (cat.at item.Ref).Schema.Properties item.Ref with
            | ok sub => rw [hr] at h; cases h
            | panic e2 =>
              rw [hr] at h
              cases h
              rfl
            | exhausted => rw [hr] at h; cases h
      · simp only [fieldRef, ht, if_neg ha] at hfr
        cases hfr

/-- When every definition reached from `r` is safe, `convert` does not panic
on the definition of `r`. -/
theorem convert_no_panic (cat : Catalog) (n : Nat) (r : Str)
    (hsafe : ∀ r1 d, Relation.ReflTransGen (RefersTo cat) r r1 →
      GoMap.get cat r1 = some d → propsSafe r1 d.Schema.Properties = true)
    (e : Panic) : convert n cat (cat.at r).Schema.Properties r ≠ Res.panic e := by
  induction n generalizing r with
  | zero => exact fun h => by cases h
  | succ k ih =>
    intro h
    cases hd : GoMap.get cat r with
    | none =>
      rw [Catalog.at_absent cat r hd] at h
      cases h
    | some d =>
      rw [Catalog.at_present cat r d hd, convert] at h
      obtain ⟨f, s, hm, hp⟩ := convertLoop_panic_mem _ _ [] e h
      have hs : fieldSafe r f s = true :=
        (List.all_eq_true.mp (hsafe r d Relation.ReflTransGen.refl hd)) (f, s) hm
      obtain ⟨r2, hr2, hrec⟩ := convertField_panic_inv _ cat r f s e hs hp
      have hedge : RefersTo cat r r2 := ⟨d, f, s, hd, hm, hr2⟩
      exact ih r2
        (fun r1 d1 hreach hd1 => hsafe r1 d1 (Relation.ReflTransGen.head hedge hreach) hd1)
        hrec

/-- C16, amended: a reference cycle keeps `convert` from returning.  When the
reference `r` is reached from itself along fields without a type tag or item
schemas of array fields, `convert` on the properties of the definition of `r`
returns with no depth budget, whatever the context reference; and when no
definition reached from `r` fails on its own, the conversion in the context
`r` is exhausted at every depth budget. -/
theorem convert_never_returns_on_cycle (cat : Catalog) (r : Str)
    (hcyc : Relation.TransGen (RefersTo cat) r r) :
    (∀ n api out, convert n cat (cat.at r).Schema.Properties api ≠ Res.ok out) ∧
    ((∀ r1 d, Relation.ReflTransGen (RefersTo cat) r r1 → GoMap.get cat r1 = some d →
        propsSafe r1 d.Schema.Properties = true) →
      ∀ n, convert n cat (cat.at r).Schema.Properties r = Res.exhausted) := by
  refine ⟨fun n => convert_not_ok_on_cycle cat r hcyc n, ?_⟩
  intro hsafe n
  cases h : convert n cat (cat.at r).Schema.Properties r with
  | ok out => exact absurd h (convert_not_ok_on_cycle cat r hcyc n r out)
  | panic e => exact absurd h (convert_no_panic cat n r hsafe e)
  | exhausted => rfl

/-- The definition `pkg/api/v1.Node` refers to itself through its field
`next`. -/
theorem nodeCatalog_cycle :
    Relation.TransGen (RefersTo nodeCatalog) "pkg/api/v1.Node".toList
      "pkg/api/v1.Node".toList :=
  Relation.TransGen.single
    ⟨⟨Schema.mk [] ["object".toList] [] [] none nodeProps⟩, "next".toList,
      Schema.ofRef "pkg/api/v1.Node".toList, rfl,
      List.mem_cons_of_mem _ (List.mem_cons_self _ _), rfl⟩

/-- The properties of the definition that `nodeCatalog` holds for a reference
are safe in the context of that reference. -/
theorem nodeCatalog_safe (r : Str) (d : OpenAPIDefinition)
    (hd : GoMap.get nodeCatalog r = some d) :
    propsSafe r d.Schema.Properties = true := by
  by_cases h1 : "pkg/api/v1.Node".toList = r
  · subst h1
    simp only [nodeCatalog, GoMap.get, if_true, Option.some.injEq] at hd
    subst hd
    rfl
  · simp only [nodeCatalog, GoMap.get, if_neg h1] at hd
    cases hd

/-- The conversion of the self-referring definition `pkg/api/v1.Node` returns
with no depth budget, and is exhausted at every depth budget. -/
theorem convert_never_returns_on_cycle_witness :
    (∀ n api out, convert n nodeCatalog nodeProps api ≠ Res.ok out) ∧
    (∀ n, convert n nodeCatalog nodeProps "pkg/api/v1.Node".toList = Res.exhausted) :=
  have h := convert_never_returns_on_cycle nodeCatalog "pkg/api/v1.Node".toList
    nodeCatalog_cycle
  ⟨h.1, h.2 (fun r1 d _ hd => nodeCatalog_safe r1 d hd)⟩

/-- C16 fails as stated: `pkg/api/v1.Node` of `brokenNodeCatalog` is reached
from itself, yet its conversion with depth budget 1 (and with any larger one)
is not exhausted: the `array` field without an item schema ends it with a nil
dereference before the recursion goes on. -/
theorem cycle_conversion_panics_before_exhaustion :
    Relation.TransGen (RefersTo brokenNodeCatalog) "pkg/api/v1.Node".toList
      "pkg/api/v1.Node".toList ∧
    convert 1 brokenNodeCatalog
      (brokenNodeCatalog.at "pkg/api/v1.Node".toList).Schema.Properties
      "pkg/api/v1.Node".toList = Res.panic Panic.nilDereference ∧
    convert 1 brokenNodeCatalog
      (brokenNodeCatalog.at "pkg/api/v1.Node".toList).Schema.Properties
      "pkg/api/v1.Node".toList ≠ Res.exhausted ∧
    ∀ n, convert (n + 1) brokenNodeCatalog
      (brokenNodeCatalog.at "pkg/api/v1.Node".toList).Schema.Properties
      "pkg/api/v1.Node".toList = Res.panic Panic.nilDereference := by
  refine ⟨?_, rfl, ?_, fun _ => rfl⟩
  · exact Relation.TransGen.single
      ⟨⟨Schema.mk [] ["object".toList] [] [] none brokenNodeProps⟩, "next".toList,
        Schema.ofRef "pkg/api/v1.Node".toList, rfl,
        List.mem_cons_of_mem _ (List.mem_cons_self _ _), rfl⟩
  · intro e
    cases e

/-! ## Termination -/

/-- A result of the loop body that is not `exhausted` stays the same when the
recursive calls are given more budget. -/
theorem convertField_stable (r r' : GoMap Schema → Str → Res (GoMap Property))
    (hr : ∀ ps a, r ps a ≠ Res.exhausted → r' ps a = r ps a)
    (cat : Catalog) (api f : Str) (s : Schema)
    (h : convertField r cat api f s ≠ Res.exhausted) :
    convertField r' cat api f s = convertField r cat api f s := by
  cases ht : s.Type_ with
  | nil =>
    simp only [convertField, ht] at h ⊢
    cases hx : r (cat.at s.Ref).Schema.Properties s.Ref with
    | ok sub =>
      rw [hr _ _ (by rw [hx]; exact fun e => by cases e), hx]
    | panic e =>
      rw [hr _ _ (by rw [hx]; exact fun e => by cases e), hx]
    | exhausted =>
      rw [hx] at h
      exact absurd rfl h
  | cons t ts =>
    by_cases ha : t = "array".toList
    · subst ha
      cases hi : s.Items with
      | none => simp only [convertField, ht, if_true, hi]
      | some i =>
        cases i with
        | none => simp only [convertField, ht, if_true, hi]
        | some item =>
          simp only [convertField, ht, if_true, hi] at h ⊢
          cases hx : r (cat.at item.Ref).Schema.Properties item.Ref with
          | ok sub =>
            rw [hr _ _ (by rw [hx]; exact fun e => by cases e), hx]
          | panic e =>
            rw [hr _ _ (by rw [hx]; exact fun e => by cases e), hx]
          | exhausted =>
            rw [hx] at h
            exact absurd rfl h
    · simp only [convertField, ht, if_neg ha]

theorem convertLoop_stable (b b' : Str → Schema → Res Property)
    (hb : ∀ f s, b f s ≠ Res.exhausted → b' f s = b f s)
    (props : GoMap Schema) (acc : GoMap Property)
    (h : convertLoop b props acc ≠ Res.exhausted) :
    convertLoop b' props acc = convertLoop b props acc := by
  induction props generalizing acc with
  | nil => rfl
  | cons c rest ih =>
    obtain ⟨field, prop⟩ := c
    simp only [convertLoop] at h ⊢
    cases hc : b field prop with
    | ok property =>
      rw [hc] at h
      rw [hb _ _ (by rw [hc]; exact fun e => by cases e), hc]
      exact ih _ h
    | panic e =>
      rw [hb _ _ (by rw [hc]; exact fun e => by cases e), hc]
    | exhausted =>
      rw [hc] at h
      exact absurd rfl h

theorem convert_stable_succ (n : Nat) (cat : Catalog) (props : GoMap Schema) (api : Str)
    (h : convert n cat props api ≠ Res.exhausted) :
    convert (n + 1) cat props api = convert n cat props api := by
  induction n generalizing props api with
  | zero => exact absurd rfl h
  | succ k ih =>
    rw [convert] at h
    rw [convert, convert]
    exact convertLoop_stable _ _
      (fun f s hfs => convertField_stable _ _ (fun ps a hpa => ih ps a hpa) cat api f s hfs)
      props [] h

/-- A result of `convert` that is not `exhausted` is its result with every
larger depth budget. -/
theorem convert_stable (n m : Nat) (hnm : n ≤ m) (cat : Catalog) (props : GoMap Schema)
    (api : Str) (h : convert n cat props api ≠ Res.exhausted) :
    convert m cat props api = convert n cat props api := by
  induction m with
  | zero =>
    have e : n = 0 := by omega
    subst e
    rfl
  | succ k ih =>
    by_cases hk : n ≤ k
    · have h2 := ih hk
      rw [convert_stable_succ k cat props api (by rw [h2]; exact h), h2]
    · have e : n = k + 1 := by omega
      subst e
      rfl

/-- The loop body is not `exhausted` when the recursive call it makes, if
any, is not. -/
theorem convertField_terminates (recur : GoMap Schema → Str → Res (GoMap Property))
    (cat : Catalog) (api f : Str) (s : Schema)
    (hr : ∀ r, fieldRef s = some r → recur (cat.at r).Schema.Properties r ≠ Res.exhausted) :
    convertField recur cat api f s ≠ Res.exhausted := by
  cases ht : s.Type_ with
  | nil =>
    have h1 := hr s.Ref (by simp only [fieldRef, ht])
    simp only [convertField, ht]
    cases hx : recur (cat.at s.Ref).Schema.Properties s.Ref with
    | ok sub => exact fun e => by cases e
    | panic e => exact fun e => by cases e
    | exhausted => exact absurd hx h1
  | cons t ts =>
    by_cases ha : t = "array".toList
    · subst ha
      cases hi : s.Items with
      | none =>
        simp only [convertField, ht, if_true, hi]
        exact fun e => by cases e
      | some i =>
        cases i with
        | none =>
          simp only [convertField, ht, if_true, hi]
          exact fun e => by cases e
        | some item =>
          have h1 := hr item.Ref (by simp only [fieldRef, ht, if_true, hi])
          simp only [convertField, ht, if_true, hi]
          cases hx : recur (cat.at item.Ref).Schema.Properties item.Ref with
          | ok sub => exact fun e => by cases e
          | panic e => exact fun e => by cases e
          | exhausted => exact absurd hx h1
    · simp only [convertField, ht, if_neg ha]
      have hav := apiVersionAndKind_ne_exhausted api
      by_cases hk : f = "kind".toList
      · rw [if_pos hk]
        cases hx : apiVersionAndKind api with
        | ok r => exact fun e => by cases e
        | panic e => exact fun e => by cases e
        | exhausted => exact absurd hx hav
      · rw [if_neg hk]
        by_cases hv : f = "apiVersion".toList
        · rw [if_pos hv]
          cases hx : apiVersionAndKind api with
          | ok r => exact fun e => by cases e
          | panic e => exact fun e => by cases e
          | exhausted => exact absurd hx hav
        · rw [if_neg hv]
          exact fun e => by cases e

/-- The loop is not `exhausted` when its body is not, on any field. -/
theorem convertLoop_terminates (body : Str → Schema → Res Property)
    (props : GoMap Schema) (acc : GoMap Property)
    (hb : ∀ f s, (f, s) ∈ props → body f s ≠ Res.exhausted) :
    convertLoop body props acc ≠ Res.exhausted := by
  induction props generalizing acc with
  | nil => exact fun e => by cases e
  | cons c rest ih =>
    obtain ⟨field, prop⟩ := c
    simp only [convertLoop]
    cases hc : body field prop with
    | ok property => exact ih _ (fun f s hm => hb f s (List.mem_cons_of_mem _ hm))
    | panic e => exact fun e => by cases e
    | exhausted => exact absurd hc (hb field prop (List.mem_cons_self _ _))

/-- One depth budget lets all the recursive calls of the fields of a property
map terminate, when each of them terminates with some budget. -/
theorem uniform_budget_terminates (cat : Catalog) (props : GoMap Schema)
    (h : ∀ f s r, (f, s) ∈ props → fieldRef s = some r →
      ∃ n, convert n cat (cat.at r).Schema.Properties r ≠ Res.exhausted) :
    ∃ N, ∀ f s r, (f, s) ∈ props → fieldRef s = some r →
      convert N cat (cat.at r).Schema.Properties r ≠ Res.exhausted := by
  induction props with
  | nil => exact ⟨0, fun f s r hm => by cases hm⟩
  | cons c rest ih =>
    obtain ⟨field, prop⟩ := c
    obtain ⟨N, hN⟩ := ih (fun f s r hm hr => h f s r (List.mem_cons_of_mem _ hm) hr)
    cases hfr : fieldRef prop with
    | none =>
      refine ⟨N, fun f s r hm hr => ?_⟩
      rcases List.mem_cons.mp hm with e | e
      · cases e
        rw [hfr] at hr
        cases hr
      · exact hN f s r e hr
    | some r0 =>
      obtain ⟨n, hn⟩ := h field prop r0 (List.mem_cons_self _ _) hfr
      refine ⟨max n N, fun f s r hm hr => ?_⟩
      rcases List.mem_cons.mp hm with e | e
      · cases e
        rw [hfr] at hr
        cases hr
        rw [convert_stable n _ (le_max_left _ _) cat _ _ hn]
        exact hn
      · rw [convert_stable N _ (le_max_right _ _) cat _ _ (hN f s r e hr)]
        exact hN f s r e hr

/-- The function `convert` terminates on a property map when every recursive
call that its fields make terminates. -/
theorem convert_terminates_of_fields (cat : Catalog) (props : GoMap Schema) (api : Str)
    (h : ∀ f s r, (f, s) ∈ props → fieldRef s = some r →
      ∃ n, convert n cat (cat.at r).Schema.Properties r ≠ Res.exhausted) :
    ∃ n, convert n cat props api ≠ Res.exhausted := by
  obtain ⟨N, hN⟩ := uniform_budget_terminates cat props h
  refine ⟨N + 1, ?_⟩
  rw [convert]
  exact convertLoop_terminates _ props []
    (fun f s hm => convertField_terminates _ cat api f s (fun r hr => hN f s r hm hr))

/-- In a catalog without reference cycles, `convert` terminates on the
definition of every reference. -/
theorem convert_terminates_on_definition (cat : Catalog) (hac : Acyclic cat) (r : Str) :
    ∃ n, convert n cat (cat.at r).Schema.Properties r ≠ Res.exhausted := by
  let K := { x : Str // x ∈ GoMap.keys cat }
  let R : K → K → Prop := fun y x => Relation.TransGen (RefersTo cat) x.1 y.1
  haveI : IsTrans K R := ⟨fun a b c h1 h2 => Relation.TransGen.trans h2 h1⟩
  haveI : IsIrrefl K R := ⟨fun a h => hac a.1 h⟩
  have hwf : WellFounded R := Finite.wellFounded_of_trans_of_irrefl R
  have habsent : ∀ r2, GoMap.get cat r2 = none →
      ∃ n, convert n cat (cat.at r2).Schema.Properties r2 ≠ Res.exhausted := by
    intro r2 hd2
    refine ⟨1, ?_⟩
    rw [Catalog.at_absent cat r2 hd2]
    exact fun e => by cases e
  have key : ∀ x : K,
      ∃ n, convert n cat (cat.at x.1).Schema.Properties x.1 ≠ Res.exhausted := by
    intro x
    induction x using hwf.induction with
    | _ x ih =>
    cases hd : GoMap.get cat x.1 with
    | none => exact habsent x.1 hd
    | some d =>
      rw [Catalog.at_present cat x.1 d hd]
      refine convert_terminates_of_fields cat _ x.1 ?_
      intro f s r2 hm hr
      have hedge : RefersTo cat x.1 r2 := ⟨d, f, s, hd, hm, hr⟩
      cases hd2 : GoMap.get cat r2 with
      | none => exact habsent r2 hd2
      | some d2 =>
        have hmem : r2 ∈ GoMap.keys cat := by
          by_contra hn
          rw [(GoMap.get_eq_none_iff cat r2).mpr hn] at hd2
          cases hd2
        exact ih ⟨r2, hmem⟩ (Relation.TransGen.single hedge)
  cases hd : GoMap.get cat r with
  | none => exact habsent r hd
  | some d =>
    have hmem : r ∈ GoMap.keys cat := by
      by_contra hn
      rw [(GoMap.get_eq_none_iff cat r).mpr hn] at hd
      cases hd
    exact key ⟨r, hmem⟩

/-- The loop body makes no recursive call for a primitive field. -/
theorem fieldRef_of_isPrimitive (s : Schema) (h : isPrimitive s = true) :
    fieldRef s = none := by
  cases ht : s.Type_ with
  | nil => simp [isPrimitive, ht] at h
  | cons t ts =>
    by_cases ha : t = "array".toList
    · simp [isPrimitive, ht, ha] at h
    · simp only [fieldRef, ht, if_neg ha]

/-- A field for which the loop body returns a value without a returning
recursive call is primitive. -/
theorem isPrimitive_of_convertField (recur : GoMap Schema → Str → Res (GoMap Property))
    (hrec : ∀ ps a sub, recur ps a ≠ Res.ok sub) (cat : Catalog) (api f : Str)
    (s : Schema) (p : Property) (h : convertField recur cat api f s = Res.ok p) :
    isPrimitive s = true := by
  cases hfr : fieldRef s with
  | some r =>
    obtain ⟨sub, hsub, _⟩ := convertField_of_fieldRef recur cat api f s r p hfr h
    exact absurd hsub (hrec _ _ sub)
  | none =>
    cases ht : s.Type_ with
    | nil => simp [fieldRef, ht] at hfr
    | cons t ts =>
      by_cases ha : t = "array".toList
      · subst ha
        cases hi : s.Items with
        | none => simp [convertField, ht, hi] at h
        | some i =>
          cases i with
          | none => simp [convertField, ht, hi] at h
          | some item => simp [fieldRef, ht, hi] at hfr
      · simp only [isPrimitive, ht, if_neg ha]

/-- C14: in a catalog without reference cycles the recursion of `convert`
terminates on every property map: from some depth budget on the conversion is
never exhausted and its result no longer changes.  The recursion bottoms out
at property maps that are empty or have only primitive fields: on such a map
`convert` finishes with depth budget 1, that is without a recursive call,
and a call that returns with depth budget 1 has only primitive fields. -/
theorem convert_terminates (cat : Catalog) (props : GoMap Schema) (api : Str)
    (hac : Acyclic cat) :
    (∃ n, ∀ m, n ≤ m → convert m cat props api ≠ Res.exhausted ∧
      convert m cat props api = convert n cat props api) ∧
    ((∀ f s, (f, s) ∈ props → isPrimitive s = true) →
      convert 1 cat props api ≠ Res.exhausted ∧
      ∀ m, convert (m + 1) cat props api = convert 1 cat props api) ∧
    (∀ out, convert 1 cat props api = Res.ok out →
      ∀ f s, (f, s) ∈ props → isPrimitive s = true) := by
  refine ⟨?_, ?_, ?_⟩
  · obtain ⟨n, hn⟩ := convert_terminates_of_fields cat props api
      (fun f s r _ _ => convert_terminates_on_definition cat hac r)
    refine ⟨n, fun m hnm => ?_⟩
    have e := convert_stable n m hnm cat props api hn
    exact ⟨by rw [e]; exact hn, e⟩
  · intro hprim
    have h1 : convert 1 cat props api ≠ Res.exhausted := by
      rw [convert]
      refine convertLoop_terminates _ props [] (fun f s hm => ?_)
      refine convertField_terminates _ cat api f s (fun r hr => ?_)
      rw [fieldRef_of_isPrimitive s (hprim f s hm)] at hr
      cases hr
    exact ⟨h1, fun m => convert_stable 1 (m + 1) (by omega) cat props api h1⟩
  · intro out h f s hm
    rw [convert] at h
    obtain ⟨p, hp⟩ := convertLoop_ok_mem _ props [] out h f s hm
    exact isPrimitive_of_convertField _ (fun ps a sub e => by cases e) cat api f s p hp

/-- The sample catalog has no cycle: the conversion of the properties of
`pkg/api/v1.Widget` terminates, and the conversion of the primitive-only
properties of `pkg/api/v1.WidgetSpec` needs no recursive call. -/
theorem convert_terminates_witness :
    (∃ n, ∀ m, n ≤ m →
      convert m widgetCatalog widgetProps "pkg/api/v1.Widget".toList ≠ Res.exhausted ∧
      convert m widgetCatalog widgetProps "pkg/api/v1.Widget".toList =
        convert n widgetCatalog widgetProps "pkg/api/v1.Widget".toList) ∧
    (convert 1 widgetCatalog widgetSpecProps "pkg/api/v1.WidgetSpec".toList ≠
        Res.exhausted ∧
      ∀ m, convert (m + 1) widgetCatalog widgetSpecProps "pkg/api/v1.WidgetSpec".toList =
        convert 1 widgetCatalog widgetSpecProps "pkg/api/v1.WidgetSpec".toList) :=
  ⟨(convert_terminates widgetCatalog widgetProps "pkg/api/v1.Widget".toList
      widgetCatalog_acyclic).1,
    (convert_terminates widgetCatalog widgetSpecProps "pkg/api/v1.WidgetSpec".toList
      widgetCatalog_acyclic).2.1 (fun f s hm => by
        simp only [widgetSpecProps, List.mem_singleton, Prod.mk.injEq] at hm
        obtain ⟨_, e⟩ := hm
        subst e
        rfl)⟩

/-! ## Independence of the order of enumeration -/

theorem GoMap.mem_keys_iff {α : Type} (m : GoMap α) (k : Str) :
    k ∈ GoMap.keys m ↔ ∃ v, (k, v) ∈ m := by
  constructor
  · intro hk
    have hk2 : k ∈ List.map Prod.fst m := hk
    obtain ⟨b, hb, e⟩ := List.mem_map.mp hk2
    obtain ⟨k2, v⟩ := b
    simp only at e
    subst e
    exact ⟨v, hb⟩
  · intro ⟨v, hv⟩
    exact List.mem_map_of_mem Prod.fst hv

theorem GoMap.keys_perm {α : Type} (m m2 : GoMap α) (h : List.Perm m m2) :
    List.Perm (GoMap.keys m) (GoMap.keys m2) :=
  List.Perm.map Prod.fst h

theorem GoMap.get_singleton {α : Type} (k j : Str) (v : α) :
    GoMap.get [(k, v)] j = if k = j then some v else none := rfl

/-- The one-key `Items` maps of two array properties are the same when the
maps under the key are. -/
theorem SameItems_singleton (k : Str) (a b : GoMap Property) (h : SameMap a b) :
    SameItems [(k, a)] [(k, b)] := by
  refine SameItems.mk _ _ ?_ ?_
  · intro j
    rw [GoMap.get_singleton, GoMap.get_singleton]
    by_cases e : k = j
    · simp only [if_pos e, reduceCtorEq]
    · simp only [if_neg e]
  · intro j p q hp hq
    rw [GoMap.get_singleton] at hp hq
    by_cases e : k = j
    · rw [if_pos e] at hp hq
      cases hp
      cases hq
      exact h
    · rw [if_neg e] at hp
      cases hp

/-- The loop body gives the same property under two enumerations of the
catalog when its recursive calls give the same maps. -/
theorem convertField_same (r r2 : GoMap Schema → Str → Res (GoMap Property))
    (cat cat2 : Catalog)
    (hr : ∀ a sub, r (cat.at a).Schema.Properties a = Res.ok sub →
      ∃ sub2, r2 (cat2.at a).Schema.Properties a = Res.ok sub2 ∧ SameMap sub sub2)
    (api f : Str) (s : Schema) (p : Property)
    (h : convertField r cat api f s = Res.ok p) :
    ∃ p2, convertField r2 cat2 api f s = Res.ok p2 ∧ SameProperty p p2 := by
  cases ht : s.Type_ with
  | nil =>
    obtain ⟨sub, hsub, e⟩ := convertField_untyped r cat api f s p ht h
    obtain ⟨sub2, hsub2, hsame⟩ := hr _ sub hsub
    refine ⟨Property.mk f "object".toList [] [] (some sub2) none, ?_, ?_⟩
    · simp only [convertField, ht, hsub2]
    · rw [e]
      exact SameProperty.mk _ _ _ _ _ _ _ _ (SameOptMap.some _ _ hsame) SameOptItems.none
  | cons t ts =>
    by_cases ha : t = "array".toList
    · subst ha
      cases hi : s.Items with
      | none => simp [convertField, ht, hi] at h
      | some i =>
        cases i with
        | none => simp [convertField, ht, hi] at h
        | some item =>
          obtain ⟨sub, hsub, e⟩ := convertField_array r cat api f s item ts p ht hi h
          obtain ⟨sub2, hsub2, hsame⟩ := hr _ sub hsub
          refine ⟨Property.mk f "array".toList [] [] none
            (some [("properties".toList, sub2)]), ?_, ?_⟩
          · simp only [convertField, ht, if_true, hi, hsub2]
          · rw [e]
            exact SameProperty.mk _ _ _ _ _ _ _ _ SameOptMap.none
              (SameOptItems.some _ _ (SameItems_singleton _ _ _ hsame))
    · refine ⟨p, ?_, ?_⟩
      · simp only [convertField, ht, if_neg ha] at h ⊢
        exact h
      · rcases convertField_primitive r cat api f s t ts p ht ha h with
          ⟨_, _, _, _, e⟩ | ⟨_, _, _, _, e⟩ | ⟨_, _, e⟩ <;>
        · rw [e]
          exact SameProperty.mk _ _ _ _ _ _ _ _ SameOptMap.none SameOptItems.none

/-- The loop gives the same map on two enumerations of a property map when
its body gives the same property for every field. -/
theorem convertLoop_same (b b2 : Str → Schema → Res Property)
    (props props2 : GoMap Schema) (out : GoMap Property)
    (hb : ∀ f s p, b f s = Res.ok p → ∃ p2, b2 f s = Res.ok p2 ∧ SameProperty p p2)
    (hperm : List.Perm props props2) (hwf : (GoMap.keys props).Nodup)
    (h : convertLoop b props [] = Res.ok out) :
    ∃ out2, convertLoop b2 props2 [] = Res.ok out2 ∧ SameMap out out2 := by
  have hwf2 : (GoMap.keys props2).Nodup :=
    (List.Perm.nodup_iff (GoMap.keys_perm props props2 hperm)).mp hwf
  have hkeys : ∀ k, k ∈ GoMap.keys props ↔ k ∈ GoMap.keys props2 :=
    fun k => List.Perm.mem_iff (GoMap.keys_perm props props2 hperm)
  obtain ⟨out2, ho2⟩ := convertLoop_returns b2 props2 [] (fun f s hm => by
    obtain ⟨p, hp, _⟩ :=
      convertLoop_get_of_mem b props [] out hwf h f s ((List.Perm.mem_iff hperm).mpr hm)
    obtain ⟨p2, hp2, _⟩ := hb f s p hp
    exact ⟨p2, hp2⟩)
  refine ⟨out2, ho2, SameMap.mk _ _ ?_ ?_⟩
  · intro k
    have h1 := convertLoop_keys b props [] out h k
    have h2 := convertLoop_keys b2 props2 [] out2 ho2 k
    have hnil : ¬ GoMap.get ([] : GoMap Property) k ≠ none := fun hn => hn rfl
    constructor
    · intro e
      by_contra hn
      rcases h2.mp hn with h3 | h3
      · exact (h1.mpr (Or.inl ((hkeys k).mpr h3))) e
      · exact hnil h3
    · intro e
      by_contra hn
      rcases h1.mp hn with h3 | h3
      · exact (h2.mpr (Or.inl ((hkeys k).mp h3))) e
      · exact hnil h3
  · intro k p q hp hq
    have hk : k ∈ GoMap.keys props := by
      rcases (convertLoop_keys b props [] out h k).mp (by rw [hp]; exact fun e => by cases e)
        with h3 | h3
      · exact h3
      · exact absurd rfl h3
    obtain ⟨s, hs⟩ := (GoMap.mem_keys_iff props k).mp hk
    obtain ⟨p1, hp1, hg1⟩ := convertLoop_get_of_mem b props [] out hwf h k s hs
    obtain ⟨q1, hq1, hg2⟩ := convertLoop_get_of_mem b2 props2 [] out2 hwf2 ho2 k s
      ((List.Perm.mem_iff hperm).mp hs)
    rw [hp] at hg1
    rw [hq] at hg2
    cases hg1
    cases hg2
    obtain ⟨p2, hp2, hsame⟩ := hb k s p hp1
    rw [hq1] at hp2
    cases hp2
    exact hsame

/-- With the same depth budget, `convert` gives the same map on two
enumerations of the property map and of the catalog. -/
theorem convert_same (cat cat2 : Catalog)
    (hcatwf : ∀ r, (GoMap.keys (cat.at r).Schema.Properties).Nodup)
    (hcat : ∀ r, List.Perm (cat.at r).Schema.Properties (cat2.at r).Schema.Properties)
    (n : Nat) (props props2 : GoMap Schema) (api : Str) (out : GoMap Property)
    (hperm : List.Perm props props2) (hwf : (GoMap.keys props).Nodup)
    (h : convert n cat props api = Res.ok out) :
    ∃ out2, convert n cat2 props2 api = Res.ok out2 ∧ SameMap out out2 := by
  induction n generalizing props props2 api out with
  | zero => cases h
  | succ k ih =>
    rw [convert] at h
    rw [convert]
    refine convertLoop_same _ _ props props2 out ?_ hperm hwf h
    intro f s p hp
    exact convertField_same _ _ cat cat2
      (fun a sub hsub => ih _ _ a sub (hcat a) (hcatwf a) hsub) api f s p hp

/-- No definition of the sample catalog binds a field name twice. -/
theorem widgetCatalog_wf (r : Str) :
    (GoMap.keys (widgetCatalog.at r).Schema.Properties).Nodup := by
  cases hd : GoMap.get widgetCatalog r with
  | none =>
    rw [Catalog.at_absent widgetCatalog r hd]
    exact List.nodup_nil
  | some d =>
    rw [Catalog.at_present widgetCatalog r d hd]
    by_cases h1 : "pkg/api/v1.Widget".toList = r
    · subst h1
      simp only [widgetCatalog, GoMap.get, if_true, Option.some.injEq] at hd
      subst hd
      decide
    · by_cases h2 : "pkg/api/v1.WidgetSpec".toList = r
      · subst h2
        simp only [widgetCatalog, GoMap.get, if_neg h1, if_true, Option.some.injEq] at hd
        subst hd
        decide
      · simp only [widgetCatalog, GoMap.get, if_neg h1, if_neg h2] at hd
        cases hd

/-- C13: conversion is deterministic and does not depend on the order in
which maps are enumerated.  When `convert` returns `out`, every run on the
same inputs returns `out`; and on any other enumeration of the property map
and of the property maps of the catalog, `convert` returns too, and what it
returns is the same map as `out`: the same keys bound to the same properties,
at every nesting depth. -/
theorem convert_deterministic (cat cat2 : Catalog) (props props2 : GoMap Schema)
    (api : Str) (out : GoMap Property) (hwf : (GoMap.keys props).Nodup)
    (hperm : List.Perm props props2)
    (hcatwf : ∀ r, (GoMap.keys (cat.at r).Schema.Properties).Nodup)
    (hcat : ∀ r, List.Perm (cat.at r).Schema.Properties (cat2.at r).Schema.Properties)
    (h : Converts cat props api out) :
    (∀ out1, Converts cat props api out1 → out1 = out) ∧
    (∃ out2, Converts cat2 props2 api out2) ∧
    (∀ out2, Converts cat2 props2 api out2 → SameMap out out2) := by
  obtain ⟨n, hn⟩ := h
  obtain ⟨o2, ho2, hsame⟩ := convert_same cat cat2 hcatwf hcat n props props2 api out
    hperm hwf hn
  refine ⟨fun out1 h1 => Converts_unique cat props api out1 out h1 ⟨n, hn⟩,
    ⟨o2, n, ho2⟩, ?_⟩
  intro out2 h2
  have e : out2 = o2 := Converts_unique cat2 props2 api out2 o2 h2 ⟨n, ho2⟩
  rw [e]
  exact hsame

/-- The properties of `pkg/api/v1.Widget` visited with `spec` first convert
to the same map as `widgetOut`. -/
theorem convert_deterministic_witness :
    (∀ out1, Converts widgetCatalog widgetProps "pkg/api/v1.Widget".toList out1 →
      out1 = widgetOut) ∧
    (∃ out2, Converts widgetCatalog widgetPropsReordered "pkg/api/v1.Widget".toList out2) ∧
    (∀ out2, Converts widgetCatalog widgetPropsReordered "pkg/api/v1.Widget".toList out2 →
      SameMap widgetOut out2) :=
  convert_deterministic widgetCatalog widgetCatalog widgetProps widgetPropsReordered
    "pkg/api/v1.Widget".toList widgetOut (by decide)
    (List.perm_append_comm :
      List.Perm ([("kind".toList, Schema.ofType "string".toList),
          ("apiVersion".toList, Schema.ofType "string".toList)] ++
          [("spec".toList, Schema.ofRef "pkg/api/v1.WidgetSpec".toList)])
        ([("spec".toList, Schema.ofRef "pkg/api/v1.WidgetSpec".toList)] ++
          [("kind".toList, Schema.ofType "string".toList),
           ("apiVersion".toList, Schema.ofType "string".toList)]))
    widgetCatalog_wf (fun _ => List.Perm.refl _) ⟨2, rfl⟩

end Openapi2schema
